import Mathlib

/-!
Verification of the nixcache binary-cache server against its specification.

Byte streams are shallowly embedded as `List Nat` (each element a byte value,
bounded by 256 where a theorem needs it).  Machine integers of the Rust source
are mapped to `Nat` with explicit wrap-arounds (`% 256`, `% 2 ^ 64`) where the
source relies on them; fallible operations (including panics such as index
out of bounds or integer-underflow aborts) are mapped to `Option`/explicit
outcome values.  External crates (fastcdc, ed25519-compact, base64, jwt) are
modelled as function parameters whose documented contracts appear as explicit
hypotheses of the theorems that need them.
-/

/-! ### Nix base32 codec, from nixcache-common/src/nix_base32.rs -/

/-- The 32-character alphabet of nix-base32 as ASCII byte values:
the string 0123456789abcdfghijklmnpqrsvwxyz (e, o, u, t omitted). -/
def BASE32_CHARS : List Nat :=
  [48, 49, 50, 51, 52, 53, 54, 55, 56, 57,
   97, 98, 99, 100, 102, 103, 104, 105, 106, 107, 108, 109, 110,
   112, 113, 114, 115, 118, 119, 120, 121, 122]

/-- One output character of `to_nix_base32` (the body of the closure mapped
over the reversed index range).  `checked_shr`/`checked_shl` with an
in-range shift are plain division / truncated multiplication on `u8`;
`checked_shl(8 - j)` with `j = 0` yields `None` and hence `0`. -/
def encodeChar (bytes : List Nat) (n : Nat) : Nat :=
  let b := n * 5
  let i := b / 8
  let j := b % 8
  let v1 := bytes.getD i 0 / 2 ^ j
  let v2 := if bytes.length - 1 ≤ i then 0
            else if j = 0 then 0
            else bytes.getD (i + 1) 0 * 2 ^ (8 - j) % 256
  BASE32_CHARS.getD ((v1 ||| v2) % 32) 0

/-- to_nix_base32: encodes a byte slice in nix-base32, as a list of ASCII
codes.  On the empty input the source computes `bytes.len() * 8 - 1` on
`usize`, which underflows and aborts (in release mode the wrapped length then
causes an out-of-bounds index); this failure is `none`. -/
def to_nix_base32 (bytes : List Nat) : Option (List Nat) :=
  if bytes.isEmpty then none
  else
    let len := (bytes.length * 8 - 1) / 5 + 1
    some (((List.range len).reverse).map (encodeChar bytes))

/-- iter().position(|b| *b == c) over a list. -/
def position (c : Nat) : List Nat → Option Nat
  | [] => none
  | x :: xs => if x = c then some 0 else (position c xs).map (· + 1)

/-- One iteration of the decoding loop of `from_nix_base32`.  A write
`hash[i] |= _` with `i` out of bounds is an index panic in the source and is
mapped to `none`, like the explicit `return None` paths. -/
def decodeStep (s : List Nat) (hashSize : Nat) (acc : Option (List Nat)) (n : Nat) :
    Option (List Nat) := do
  let hash ← acc
  let c := s.getD (s.length - n - 1) 0
  let digit ← position c BASE32_CHARS
  let b := n * 5
  let i := b / 8
  let j := b % 8
  if i < hashSize then
    let hash := hash.set i (hash.getD i 0 ||| digit * 2 ^ j % 256)
    let v2 := if j = 0 then 0 else digit / 2 ^ (8 - j)
    if i < hashSize - 1 then
      pure (hash.set (i + 1) (hash.getD (i + 1) 0 ||| v2))
    else if v2 ≠ 0 then none
    else pure hash
  else none

/-- from_nix_base32: decodes a nix-base32 string (given as ASCII codes). -/
def from_nix_base32 (s : List Nat) : Option (List Nat) :=
  let hashSize := s.length * 5 / 8
  (List.range s.length).foldl (decodeStep s hashSize)
    (some (List.replicate hashSize 0))

/-- Value of a byte list read little-endian (byte 0 least significant). -/
def bytesVal : List Nat → Nat
  | [] => 0
  | b :: t => b + 256 * bytesVal t

/-- The byte list of length `m` representing a value little-endian. -/
def bytesOfVal (v m : Nat) : List Nat :=
  (List.range m).map (fun i => v / 2 ^ (8 * i) % 256)

/-! ### Arithmetic helpers for the base32 proofs -/

/-- Bitwise or of a value below `2 ^ k` with a multiple of `2 ^ k` is addition. -/
theorem lor_mul_two_pow_eq_add (k a b : Nat) (h : a < 2 ^ k) :
    a ||| 2 ^ k * b = a + 2 ^ k * b := by
  induction k generalizing a b with
  | zero =>
    have ha : a = 0 := by simpa using h
    subst ha
    simp
  | succ k ih =>
    have ha2 : a / 2 < 2 ^ k := by
      rw [Nat.div_lt_iff_lt_mul (by norm_num : 0 < 2)]
      calc a < 2 ^ (k + 1) := h
        _ = 2 ^ k * 2 := by ring
    have hpow : 2 ^ (k + 1) * b = 2 * (2 ^ k * b) := by ring
    have hdiv : (a ||| 2 ^ (k + 1) * b) / 2 = a / 2 + 2 ^ k * b := by
      rw [Nat.or_div_two, hpow, Nat.mul_comm 2 (2 ^ k * b),
        Nat.mul_div_cancel _ (by norm_num : 0 < 2)]
      exact ih _ _ ha2
    have hmod : (a ||| 2 ^ (k + 1) * b) % 2 = a % 2 := by
      have h2 : (2 ^ (k + 1) * b) % 2 = 0 := by
        rw [hpow]; exact Nat.mul_mod_right 2 _
      have h3 := Nat.or_mod_two_eq_one (a := a) (b := 2 ^ (k + 1) * b)
      have h5 : (a ||| 2 ^ (k + 1) * b) % 2 < 2 := Nat.mod_lt _ (by norm_num)
      have h6 : a % 2 < 2 := Nat.mod_lt _ (by norm_num)
      omega
    have hfin := Nat.div_add_mod (a ||| 2 ^ (k + 1) * b) 2
    have hfin2 := Nat.div_add_mod a 2
    rw [hdiv, hmod] at hfin
    omega

/-- Adding a multiple of `2 ^ e` does not change byte `p` when `e` is at least
a byte above position `p`. -/
theorem slice_stable (A d e p : Nat) (h8 : 8 * p + 8 ≤ e) :
    (A + d * 2 ^ e) / 2 ^ (8 * p) % 256 = A / 2 ^ (8 * p) % 256 := by
  obtain ⟨r, hr⟩ : ∃ r, e = 8 * p + (8 + r) := ⟨e - 8 * p - 8, by omega⟩
  subst hr
  have he : d * 2 ^ (8 * p + (8 + r)) = 2 ^ (8 * p) * (256 * (d * 2 ^ r)) := by
    rw [pow_add, pow_add]; ring
  rw [he, Nat.add_mul_div_left _ _ (Nat.pos_pow_of_pos _ (by norm_num)),
    Nat.add_mul_mod_self_left]

/-- Byte `i` after placing a digit at bit position `8 * i + j` on top of a
value `A` that occupies only the bits below that position. -/
theorem slice_mid (A d i j : Nat) (hA : A < 2 ^ (8 * i + j)) (hj : j < 8) :
    (A + d * 2 ^ (8 * i + j)) / 2 ^ (8 * i) % 256
      = A / 2 ^ (8 * i) + 2 ^ j * (d % 2 ^ (8 - j)) := by
  have h256 : (2 : Nat) ^ j * 2 ^ (8 - j) = 256 := by
    rw [← pow_add, show j + (8 - j) = 8 from by omega]; norm_num
  have hd : d * 2 ^ j = 2 ^ j * (d % 2 ^ (8 - j)) + 256 * (d / 2 ^ (8 - j)) := by
    conv_lhs => rw [show d = 2 ^ (8 - j) * (d / 2 ^ (8 - j)) + d % 2 ^ (8 - j)
      from (Nat.div_add_mod d (2 ^ (8 - j))).symm]
    rw [← h256]; ring
  have he : d * 2 ^ (8 * i + j) = 2 ^ (8 * i) * (d * 2 ^ j) := by
    rw [pow_add]; ring
  have hAi : A / 2 ^ (8 * i) < 2 ^ j := by
    rw [Nat.div_lt_iff_lt_mul (Nat.pos_pow_of_pos _ (by norm_num))]
    calc A < 2 ^ (8 * i + j) := hA
      _ = 2 ^ j * 2 ^ (8 * i) := by rw [pow_add]; ring
  have hsmall : A / 2 ^ (8 * i) + 2 ^ j * (d % 2 ^ (8 - j)) < 256 := by
    have h1 : d % 2 ^ (8 - j) < 2 ^ (8 - j) :=
      Nat.mod_lt d (Nat.pos_pow_of_pos _ (by norm_num))
    have h2 : 2 ^ j * (d % 2 ^ (8 - j)) + 2 ^ j ≤ 2 ^ j * 2 ^ (8 - j) := by
      have h0 := Nat.mul_le_mul_left (k := 2 ^ j) (Nat.succ_le_of_lt h1)
      simpa [Nat.mul_succ] using h0
    rw [h256] at h2
    omega
  rw [he, Nat.add_mul_div_left _ _ (Nat.pos_pow_of_pos _ (by norm_num)), hd]
  rw [← Nat.add_assoc, Nat.add_mul_mod_self_left, Nat.mod_eq_of_lt hsmall]

/-- Byte `i + 1` after placing a digit at bit position `8 * i + j`: it receives
exactly the bits of the digit that overflow byte `i`. -/
theorem slice_carry (A d i j : Nat) (hA : A < 2 ^ (8 * i + j)) (hj : j < 8) (hd : d < 32) :
    (A + d * 2 ^ (8 * i + j)) / 2 ^ (8 * i + 8) % 256 = d / 2 ^ (8 - j) := by
  have hsplit : A + d * 2 ^ (8 * i + j)
      = (A + (d % 2 ^ (8 - j)) * 2 ^ (8 * i + j)) + 2 ^ (8 * i + 8) * (d / 2 ^ (8 - j)) := by
    conv_lhs => rw [show d = 2 ^ (8 - j) * (d / 2 ^ (8 - j)) + d % 2 ^ (8 - j)
      from (Nat.div_add_mod d (2 ^ (8 - j))).symm]
    have he : (2 : Nat) ^ (8 * i + 8) = 2 ^ (8 * i + j) * 2 ^ (8 - j) := by
      rw [← pow_add]; congr 1; omega
    rw [he]; ring
  have hbr : A + (d % 2 ^ (8 - j)) * 2 ^ (8 * i + j) < 2 ^ (8 * i + 8) := by
    have h1 : d % 2 ^ (8 - j) ≤ 2 ^ (8 - j) - 1 := by
      have := Nat.mod_lt d (y := 2 ^ (8 - j)) (Nat.pos_pow_of_pos _ (by norm_num))
      omega
    have h2 : (d % 2 ^ (8 - j)) * 2 ^ (8 * i + j) ≤ (2 ^ (8 - j) - 1) * 2 ^ (8 * i + j) :=
      Nat.mul_le_mul_right _ h1
    have h3 : (2 ^ (8 - j) - 1) * 2 ^ (8 * i + j) = 2 ^ (8 * i + 8) - 2 ^ (8 * i + j) := by
      have he : (2:Nat) ^ (8 * i + 8) = 2 ^ (8 - j) * 2 ^ (8 * i + j) := by
        rw [← pow_add]; congr 1; omega
      rw [Nat.mul_comm, ← Nat.pred_eq_sub_one, Nat.mul_pred, Nat.mul_comm, ← he]
    have hp : (2:Nat) ^ (8 * i + j) ≤ 2 ^ (8 * i + 8) :=
      Nat.pow_le_pow_right (by norm_num) (by omega)
    omega
  have hdle : d / 2 ^ (8 - j) ≤ d := Nat.div_le_self _ _
  rw [hsplit, Nat.add_mul_div_left _ _ (Nat.pos_pow_of_pos _ (by norm_num)),
    Nat.div_eq_of_lt hbr, Nat.zero_add, Nat.mod_eq_of_lt (by omega)]

/-! ### Little-endian byte values -/

theorem bytesVal_drop (bytes : List Nat) (hb : ∀ x ∈ bytes, x < 256) :
    ∀ i, bytesVal (bytes.drop i) = bytesVal bytes / 2 ^ (8 * i) := by
  induction bytes with
  | nil => intro i; simp [bytesVal]
  | cons b t ih =>
    intro i
    cases i with
    | zero => simp
    | succ i =>
      have hb' : ∀ x ∈ t, x < 256 := fun x hx => hb x (List.mem_cons_of_mem _ hx)
      have hbb : b < 256 := hb b (List.mem_cons_self _ _)
      have e1 : (b :: t).drop (i + 1) = t.drop i := rfl
      rw [e1, ih hb' i]
      have e2 : (8 : Nat) * (i + 1) = 8 + 8 * i := by ring
      rw [e2, pow_add]
      rw [← Nat.div_div_eq_div_mul]
      congr 1
      show bytesVal t = bytesVal (b :: t) / 2 ^ 8
      have e3 : bytesVal (b :: t) = b + 2 ^ 8 * bytesVal t := by
        simp [bytesVal]
      rw [e3, Nat.add_mul_div_left _ _ (by norm_num : (0:Nat) < 2 ^ 8),
        Nat.div_eq_of_lt (by omega)]
      omega

theorem bytesVal_lt (bytes : List Nat) (hb : ∀ x ∈ bytes, x < 256) :
    bytesVal bytes < 2 ^ (8 * bytes.length) := by
  induction bytes with
  | nil => simp [bytesVal]
  | cons b t ih =>
    have hb' : ∀ x ∈ t, x < 256 := fun x hx => hb x (List.mem_cons_of_mem _ hx)
    have hbb : b < 256 := hb b (List.mem_cons_self _ _)
    have h1 := ih hb'
    have e2 : (8 : Nat) * (b :: t).length = 8 + 8 * t.length := by
      simp [List.length_cons]; ring
    rw [e2, pow_add]
    show b + 256 * bytesVal t < 2 ^ 8 * 2 ^ (8 * t.length)
    have h2 : 256 * bytesVal t + 256 ≤ 256 * 2 ^ (8 * t.length) := by
      have := Nat.mul_le_mul_left 256 h1
      omega
    omega

theorem bytesOfVal_cons (v m : Nat) :
    bytesOfVal v (m + 1) = v % 256 :: bytesOfVal (v / 256) m := by
  unfold bytesOfVal
  rw [List.range_succ_eq_map, List.map_cons, List.map_map]
  congr 1
  · simp
  · apply List.map_congr_left
    intro i _
    simp only [Function.comp]
    rw [Nat.div_div_eq_div_mul]
    congr 2
    rw [show (8 : Nat) * (i + 1) = 8 + 8 * i by ring, pow_add]
    norm_num

theorem bytesOfVal_bytesVal (bytes : List Nat) (hb : ∀ x ∈ bytes, x < 256) :
    bytesOfVal (bytesVal bytes) bytes.length = bytes := by
  induction bytes with
  | nil => simp [bytesOfVal]
  | cons b t ih =>
    have hb' : ∀ x ∈ t, x < 256 := fun x hx => hb x (List.mem_cons_of_mem _ hx)
    have hbb : b < 256 := hb b (List.mem_cons_self _ _)
    rw [List.length_cons, bytesOfVal_cons]
    have e1 : bytesVal (b :: t) % 256 = b := by
      show (b + 256 * bytesVal t) % 256 = b
      rw [Nat.add_mul_mod_self_left, Nat.mod_eq_of_lt hbb]
    have e2 : bytesVal (b :: t) / 256 = bytesVal t := by
      show (b + 256 * bytesVal t) / 256 = bytesVal t
      rw [Nat.add_mul_div_left _ _ (by norm_num : (0:Nat) < 256),
        Nat.div_eq_of_lt hbb]
      omega
    rw [e1, e2, ih hb']

/-! ### Characterizing the encoder -/

/-- The byte-window computation inside one encoded character, reduced to the
base-32 digit of the little-endian value. -/
theorem encode_core (b0 b1 B2 j : Nat) (hb0 : b0 < 256) (_hb1 : b1 < 256) (hj8 : j < 8) :
    (b0 / 2 ^ j ||| (if j = 0 then 0 else b1 * 2 ^ (8 - j) % 256)) % 32
      = (b0 + 256 * (b1 + 256 * B2)) / 2 ^ j % 32 := by
  by_cases hj0 : j = 0
  · subst hj0
    rw [if_pos rfl, Nat.or_zero]
    simp only [pow_zero, Nat.div_one]
    omega
  · rw [if_neg hj0]
    have hj1 : 1 ≤ j := by omega
    interval_cases j
    · rw [show b1 * 2 ^ (8 - 1) % 256 = 2 ^ 7 * (b1 % 2 ^ 1) from by omega,
        lor_mul_two_pow_eq_add 7 _ _ (by omega)]
      omega
    · rw [show b1 * 2 ^ (8 - 2) % 256 = 2 ^ 6 * (b1 % 2 ^ 2) from by omega,
        lor_mul_two_pow_eq_add 6 _ _ (by omega)]
      omega
    · rw [show b1 * 2 ^ (8 - 3) % 256 = 2 ^ 5 * (b1 % 2 ^ 3) from by omega,
        lor_mul_two_pow_eq_add 5 _ _ (by omega)]
      omega
    · rw [show b1 * 2 ^ (8 - 4) % 256 = 2 ^ 4 * (b1 % 2 ^ 4) from by omega,
        lor_mul_two_pow_eq_add 4 _ _ (by omega)]
      omega
    · rw [show b1 * 2 ^ (8 - 5) % 256 = 2 ^ 3 * (b1 % 2 ^ 5) from by omega,
        lor_mul_two_pow_eq_add 3 _ _ (by omega)]
      omega
    · rw [show b1 * 2 ^ (8 - 6) % 256 = 2 ^ 2 * (b1 % 2 ^ 6) from by omega,
        lor_mul_two_pow_eq_add 2 _ _ (by omega)]
      omega
    · rw [show b1 * 2 ^ (8 - 7) % 256 = 2 ^ 1 * (b1 % 2 ^ 7) from by omega,
        lor_mul_two_pow_eq_add 1 _ _ (by omega)]
      omega

/-- Character `n` of the encoding is the alphabet entry for base-32 digit `n`
of the little-endian value of the input. -/
theorem encodeChar_eq (bytes : List Nat) (n : Nat)
    (hb : ∀ x ∈ bytes, x < 256) (hn : n * 5 < 8 * bytes.length) :
    encodeChar bytes n = BASE32_CHARS.getD (bytesVal bytes / 2 ^ (n * 5) % 32) 0 := by
  have hij := Nat.div_add_mod (n * 5) 8
  have hj8 : n * 5 % 8 < 8 := Nat.mod_lt _ (by norm_num)
  have hi : n * 5 / 8 < bytes.length := by omega
  have hkey : bytesVal bytes / 2 ^ (n * 5)
      = bytesVal (bytes.drop (n * 5 / 8)) / 2 ^ (n * 5 % 8) := by
    rw [bytesVal_drop bytes hb (n * 5 / 8), Nat.div_div_eq_div_mul, ← pow_add]
    congr 2
    omega
  have hgd : ∀ k, k < bytes.length → bytes.getD k 0 ∈ bytes := by
    intro k hk
    rw [List.getD_eq_getElem?_getD, List.getElem?_eq_getElem hk]
    exact List.getElem_mem _
  have hdropi : bytes.drop (n * 5 / 8)
      = bytes.getD (n * 5 / 8) 0 :: bytes.drop (n * 5 / 8 + 1) := by
    rw [List.drop_eq_getElem_cons hi]
    congr 1
    rw [List.getD_eq_getElem?_getD, List.getElem?_eq_getElem hi]
    rfl
  unfold encodeChar
  apply congrArg (fun z => BASE32_CHARS.getD z 0)
  rw [hkey, hdropi]
  have hb0 : bytes.getD (n * 5 / 8) 0 < 256 := hb _ (hgd _ hi)
  by_cases hlast : bytes.length - 1 ≤ n * 5 / 8
  · have hdropnil : bytes.drop (n * 5 / 8 + 1) = [] := by
      apply List.drop_eq_nil_of_le
      omega
    rw [if_pos hlast, hdropnil, Nat.or_zero]
    show bytes.getD (n * 5 / 8) 0 / 2 ^ (n * 5 % 8) % 32
      = (bytes.getD (n * 5 / 8) 0 + 256 * 0) / 2 ^ (n * 5 % 8) % 32
    norm_num
  · rw [if_neg hlast]
    have hi1 : n * 5 / 8 + 1 < bytes.length := by omega
    have hdropi1 : bytes.drop (n * 5 / 8 + 1)
        = bytes.getD (n * 5 / 8 + 1) 0 :: bytes.drop (n * 5 / 8 + 2) := by
      rw [List.drop_eq_getElem_cons hi1]
      congr 1
      rw [List.getD_eq_getElem?_getD, List.getElem?_eq_getElem hi1]
      rfl
    have hb1 : bytes.getD (n * 5 / 8 + 1) 0 < 256 := hb _ (hgd _ hi1)
    rw [hdropi1]
    show (bytes.getD (n * 5 / 8) 0 / 2 ^ (n * 5 % 8) |||
        (if n * 5 % 8 = 0 then 0
         else bytes.getD (n * 5 / 8 + 1) 0 * 2 ^ (8 - n * 5 % 8) % 256)) % 32
      = (bytes.getD (n * 5 / 8) 0 + 256 * (bytes.getD (n * 5 / 8 + 1) 0
          + 256 * bytesVal (bytes.drop (n * 5 / 8 + 2)))) / 2 ^ (n * 5 % 8) % 32
    exact encode_core _ _ _ _ hb0 hb1 hj8

/-! ### Characterizing the decoder -/

/-- Looking up an alphabet character recovers its digit. -/
theorem pos_char : ∀ d, d < 32 → position (BASE32_CHARS.getD d 0) BASE32_CHARS = some d := by
  decide

theorem bytesOfVal_length (v m : Nat) : (bytesOfVal v m).length = m := by
  simp [bytesOfVal]

theorem bytesOfVal_getElem (v m p : Nat) (hp : p < (bytesOfVal v m).length) :
    (bytesOfVal v m)[p] = v / 2 ^ (8 * p) % 256 := by
  simp [bytesOfVal]

theorem bytesOfVal_getD (v m p : Nat) (hp : p < m) :
    (bytesOfVal v m).getD p 0 = v / 2 ^ (8 * p) % 256 := by
  have hp' : p < (bytesOfVal v m).length := by rw [bytesOfVal_length]; exact hp
  rw [List.getD_eq_getElem?_getD, List.getElem?_eq_getElem hp', bytesOfVal_getElem]
  rfl

theorem getD_set_ne (l : List Nat) {i k : Nat} (a : Nat) (h : i ≠ k) :
    (l.set i a).getD k 0 = l.getD k 0 := by
  rw [List.getD_eq_getElem?_getD, List.getD_eq_getElem?_getD, List.getElem?_set_ne h]

/-- One decoding step applied to the byte image of the low bits installs
base-32 digit `N` of the value `B` in place. -/
theorem decodeStep_spec (s : List Nat) (m B N L : Nat)
    (hc : s.getD (s.length - N - 1) 0 = BASE32_CHARS.getD (B / 2 ^ (N * 5) % 32) 0)
    (hNL : N < L)
    (hmL : 8 * m ≤ 5 * L) (hmL2 : 5 * L ≤ 8 * m + 4)
    (hB : B < 2 ^ (8 * m)) :
    decodeStep s m (some (bytesOfVal (B % 2 ^ (N * 5)) m)) N
      = some (bytesOfVal (B % 2 ^ (N * 5 + 5)) m) := by
  have hd32 : B / 2 ^ (N * 5) % 32 < 32 := Nat.mod_lt _ (by norm_num)
  have hij := Nat.div_add_mod (N * 5) 8
  have hj8 : N * 5 % 8 < 8 := Nat.mod_lt _ (by norm_num)
  have him : N * 5 / 8 < m := by omega
  have hA : B % 2 ^ (N * 5) < 2 ^ (N * 5) :=
    Nat.mod_lt _ (Nat.pos_pow_of_pos _ (by norm_num))
  have hApos : (0:Nat) < 2 ^ (N * 5) := Nat.pos_pow_of_pos _ (by norm_num)
  have hA' : B % 2 ^ (N * 5 + 5) = B % 2 ^ (N * 5) + (B / 2 ^ (N * 5) % 32) * 2 ^ (N * 5) := by
    rw [pow_add, show (2:Nat) ^ 5 = 32 from rfl, Nat.mod_mul]
    ring
  -- abbreviations
  set d := B / 2 ^ (N * 5) % 32 with hddef
  set A := B % 2 ^ (N * 5) with hAdef
  unfold decodeStep
  rw [Option.bind_eq_bind, Option.some_bind, hc]
  simp only [pos_char _ hd32, Option.bind_eq_bind, Option.some_bind]
  rw [if_pos him]
  have hgetDi : (bytesOfVal A m).getD (N * 5 / 8) 0 = A / 2 ^ (8 * (N * 5 / 8)) % 256 :=
    bytesOfVal_getD _ _ _ him
  have hAdiv : A / 2 ^ (8 * (N * 5 / 8)) < 2 ^ (N * 5 % 8) := by
    rw [Nat.div_lt_iff_lt_mul (Nat.pos_pow_of_pos _ (by norm_num)), ← pow_add]
    calc A < 2 ^ (N * 5) := hA
      _ ≤ 2 ^ (N * 5 % 8 + 8 * (N * 5 / 8)) := by
        apply Nat.pow_le_pow_right (by norm_num)
        omega
  have hAdivmod : A / 2 ^ (8 * (N * 5 / 8)) % 256 = A / 2 ^ (8 * (N * 5 / 8)) :=
    Nat.mod_eq_of_lt (by
      have : (2:Nat) ^ (N * 5 % 8) ≤ 2 ^ 8 := Nat.pow_le_pow_right (by norm_num) (by omega)
      have h8 : (2:Nat) ^ 8 = 256 := by norm_num
      omega)
  have hdig : d * 2 ^ (N * 5 % 8) % 256 = 2 ^ (N * 5 % 8) * (d % 2 ^ (8 - N * 5 % 8)) := by
    rw [show (256:Nat) = 2 ^ (8 - N * 5 % 8) * 2 ^ (N * 5 % 8) from by
        rw [← pow_add]
        rw [show 8 - N * 5 % 8 + N * 5 % 8 = 8 from by omega]
        norm_num,
      Nat.mul_mod_mul_right]
    ring
  have hw1 : (bytesOfVal A m).getD (N * 5 / 8) 0 ||| d * 2 ^ (N * 5 % 8) % 256
      = (A + d * 2 ^ (8 * (N * 5 / 8) + N * 5 % 8)) / 2 ^ (8 * (N * 5 / 8)) % 256 := by
    rw [hgetDi, hAdivmod, hdig,
      lor_mul_two_pow_eq_add _ _ _ hAdiv,
      slice_mid _ _ _ _ (by rw [show 8 * (N * 5 / 8) + N * 5 % 8 = N * 5 from by omega]; exact hA) hj8]
  have hv2 : (if N * 5 % 8 = 0 then 0 else d / 2 ^ (8 - N * 5 % 8)) = d / 2 ^ (8 - N * 5 % 8) := by
    by_cases hj0 : N * 5 % 8 = 0
    · rw [if_pos hj0, hj0]
      rw [Nat.div_eq_of_lt (by norm_num; omega)]
    · rw [if_neg hj0]
  by_cases hbr : N * 5 / 8 < m - 1
  · rw [if_pos hbr]
    -- getD at i+1 of the array already set at i
    have hne : N * 5 / 8 ≠ N * 5 / 8 + 1 := by omega
    have him1 : N * 5 / 8 + 1 < m := by omega
    have hgetDi1 : ((bytesOfVal A m).set (N * 5 / 8) ((bytesOfVal A m).getD (N * 5 / 8) 0 ||| d * 2 ^ (N * 5 % 8) % 256)).getD (N * 5 / 8 + 1) 0
        = A / 2 ^ (8 * (N * 5 / 8 + 1)) % 256 := by
      rw [getD_set_ne _ _ hne, bytesOfVal_getD _ _ _ him1]
    have hAlt1 : A < 2 ^ (8 * (N * 5 / 8 + 1)) := by
      calc A < 2 ^ (N * 5) := hA
        _ ≤ 2 ^ (8 * (N * 5 / 8 + 1)) := by
          apply Nat.pow_le_pow_right (by norm_num)
          omega
    have hzero : A / 2 ^ (8 * (N * 5 / 8 + 1)) % 256 = 0 := by
      rw [Nat.div_eq_of_lt hAlt1]
    rw [hgetDi1, hzero, Nat.zero_or, hv2, hw1]
    congr 1
    apply List.ext_getElem
    · simp [bytesOfVal_length]
    intro p hp1 hp2
    rw [bytesOfVal_length] at hp2
    have hlen1 : p < ((bytesOfVal A m).set (N * 5 / 8) ((A + d * 2 ^ (8 * (N * 5 / 8) + N * 5 % 8)) / 2 ^ (8 * (N * 5 / 8)) % 256)).length := by
      simpa [bytesOfVal_length] using hp2
    rw [bytesOfVal_getElem]
    have hA'2 : B % 2 ^ (N * 5 + 5) = A + d * 2 ^ (8 * (N * 5 / 8) + N * 5 % 8) := by
      rw [hA', show 8 * (N * 5 / 8) + N * 5 % 8 = N * 5 from by omega]
    rw [hA'2]
    by_cases hpi1 : p = N * 5 / 8 + 1
    · subst hpi1
      rw [List.getElem_set_self (by simpa [bytesOfVal_length] using him1)]
      rw [show 8 * (N * 5 / 8 + 1) = 8 * (N * 5 / 8) + 8 from by ring]
      rw [slice_carry _ _ _ _ (by rw [show 8 * (N * 5 / 8) + N * 5 % 8 = N * 5 from by omega]; exact hA) hj8 hd32]
    · rw [List.getElem_set_ne (by omega)]
      by_cases hpi : p = N * 5 / 8
      · subst hpi
        rw [List.getElem_set_self (by simpa [bytesOfVal_length] using him)]
      · rw [List.getElem_set_ne (by omega), bytesOfVal_getElem]
        by_cases hplt : p < N * 5 / 8
        · rw [slice_stable]
          omega
        · -- p exceeds i + 1 : both slices are zero
          have hpgt : N * 5 / 8 + 1 < p := by omega
          have h1 : d * 2 ^ (8 * (N * 5 / 8) + N * 5 % 8) < 32 * 2 ^ (N * 5) := by
            rw [show 8 * (N * 5 / 8) + N * 5 % 8 = N * 5 from by omega]
            exact (Nat.mul_lt_mul_right hApos).mpr hd32
          have h2 : (2:Nat) ^ (N * 5) * 64 ≤ 2 ^ (8 * p) := by
            rw [show (64:Nat) = 2 ^ 6 from by norm_num, ← pow_add]
            apply Nat.pow_le_pow_right (by norm_num)
            omega
          have hend : A + d * 2 ^ (8 * (N * 5 / 8) + N * 5 % 8) < 2 ^ (8 * p) := by omega
          have hend2 : A < 2 ^ (8 * p) := by omega
          rw [Nat.div_eq_of_lt hend, Nat.div_eq_of_lt hend2]
  · rw [if_neg hbr]
    have him1 : N * 5 / 8 = m - 1 := by omega
    have hv2zero : d / 2 ^ (8 - N * 5 % 8) = 0 := by
      apply Nat.div_eq_of_lt
      calc d ≤ B / 2 ^ (N * 5) := Nat.mod_le _ _
        _ < 2 ^ (8 - N * 5 % 8) := by
          rw [Nat.div_lt_iff_lt_mul hApos, ← pow_add]
          calc B < 2 ^ (8 * m) := hB
            _ ≤ 2 ^ (8 - N * 5 % 8 + N * 5) := by
              apply Nat.pow_le_pow_right (by norm_num)
              omega
    rw [hv2, hv2zero]
    simp only [ne_eq, not_true_eq_false, if_neg, reduceIte]
    rw [hw1]
    congr 1
    apply List.ext_getElem
    · simp [bytesOfVal_length]
    intro p hp1 hp2
    rw [bytesOfVal_length] at hp2
    rw [bytesOfVal_getElem]
    have hA'2 : B % 2 ^ (N * 5 + 5) = A + d * 2 ^ (8 * (N * 5 / 8) + N * 5 % 8) := by
      rw [hA', show 8 * (N * 5 / 8) + N * 5 % 8 = N * 5 from by omega]
    rw [hA'2]
    by_cases hpi : p = N * 5 / 8
    · subst hpi
      rw [List.getElem_set_self (by simpa [bytesOfVal_length] using him)]
    · rw [List.getElem_set_ne (by omega), bytesOfVal_getElem]
      have hplt : p < N * 5 / 8 := by omega
      rw [slice_stable]
      omega

theorem bytesOfVal_zero (m : Nat) : bytesOfVal 0 m = List.replicate m 0 := by
  apply List.eq_replicate_iff.2
  constructor
  · simp [bytesOfVal]
  · intro b hb
    simp [bytesOfVal] at hb
    obtain ⟨i, hi, hbe⟩ := hb
    omega

theorem decode_fold (s : List Nat) (m B L : Nat)
    (hc : ∀ N, N < L → s.getD (s.length - N - 1) 0 = BASE32_CHARS.getD (B / 2 ^ (N * 5) % 32) 0)
    (hmL : 8 * m ≤ 5 * L) (hmL2 : 5 * L ≤ 8 * m + 4)
    (hB : B < 2 ^ (8 * m)) :
    ∀ N, N ≤ L → (List.range N).foldl (decodeStep s m) (some (List.replicate m 0))
      = some (bytesOfVal (B % 2 ^ (N * 5)) m) := by
  intro N
  induction N with
  | zero =>
    intro _
    simp only [List.range_zero, List.foldl_nil, Nat.zero_mul, pow_zero, Nat.mod_one]
    rw [bytesOfVal_zero]
  | succ N ih =>
    intro hNL
    rw [List.range_succ, List.foldl_append, ih (by omega)]
    simp only [List.foldl_cons, List.foldl_nil]
    rw [decodeStep_spec s m B N L (hc N (by omega)) (by omega) hmL hmL2 hB]
    rw [show (N + 1) * 5 = N * 5 + 5 from by ring]

theorem nix_base32_roundtrip_of_pos_length (bytes : List Nat)
    (h1 : 1 ≤ bytes.length) (hb : ∀ x ∈ bytes, x < 256) :
    ∃ s, to_nix_base32 bytes = some s
      ∧ from_nix_base32 s = some bytes
      ∧ s.length = (bytes.length * 8 + 4) / 5
      ∧ ∀ c ∈ s, c ∈ BASE32_CHARS := by
  have hne : bytes.isEmpty = false := by
    cases bytes with
    | nil => simp at h1
    | cons a t => rfl
  refine ⟨((List.range ((bytes.length * 8 - 1) / 5 + 1)).reverse).map (encodeChar bytes),
    ?_, ?_, ?_, ?_⟩
  · simp [to_nix_base32, hne]
  · set L := (bytes.length * 8 - 1) / 5 + 1 with hLdef
    set s := ((List.range L).reverse).map (encodeChar bytes) with hsdef
    have hslen : s.length = L := by simp [hsdef]
    have hL1 : 8 * bytes.length ≤ 5 * L := by omega
    have hL2 : 5 * L ≤ 8 * bytes.length + 4 := by omega
    have hB : bytesVal bytes < 2 ^ (8 * bytes.length) := bytesVal_lt bytes hb
    have hsize : L * 5 / 8 = bytes.length := by omega
    have hc : ∀ N, N < L → s.getD (s.length - N - 1) 0
        = BASE32_CHARS.getD (bytesVal bytes / 2 ^ (N * 5) % 32) 0 := by
      intro N hN
      rw [List.getD_eq_getElem?_getD, hslen, hsdef]
      rw [List.getElem?_map, List.getElem?_reverse (by simp only [List.length_range]; omega)]
      rw [show (List.range L).length - 1 - (L - N - 1) = N from by
        simp only [List.length_range]; omega]
      rw [List.getElem?_range hN]
      simp only [Option.map_some', Option.getD_some]
      exact encodeChar_eq bytes N hb (by omega)
    show from_nix_base32 s = some bytes
    unfold from_nix_base32
    rw [hslen, hsize]
    have := decode_fold s bytes.length (bytesVal bytes) L hc (by omega) (by omega) hB L (le_refl L)
    rw [this, Nat.mod_eq_of_lt, bytesOfVal_bytesVal bytes hb]
    calc bytesVal bytes < 2 ^ (8 * bytes.length) := hB
      _ ≤ 2 ^ (L * 5) := Nat.pow_le_pow_right (by norm_num) (by omega)
  · simp only [List.length_map, List.length_reverse, List.length_range]
    omega
  · intro c hc
    simp only [List.mem_map] at hc
    obtain ⟨k, _, hk2⟩ := hc
    rw [← hk2]
    unfold encodeChar
    have h32 : ∀ z, z < 32 → BASE32_CHARS.getD z 0 ∈ BASE32_CHARS := by decide
    apply h32
    exact Nat.mod_lt _ (by norm_num)

/-! ### Claim C5: nix-base32 round trip -/

/-- The 32-byte test value 99a2da84cec54d17325bcee0a079669c1b15eb7ead32246514b75b97862f1e00. -/
def nixBase32TestBytes : List Nat :=
  [153, 162, 218, 132, 206, 197, 77, 23, 50, 91, 206, 224, 160, 121, 102, 156,
   27, 21, 235, 126, 173, 50, 36, 101, 20, 183, 91, 151, 134, 47, 30, 0]

/-- ASCII codes of 000y5y39fnxp2ijj8cmdgvmia6wwcrws1q6fbcr1fkf5rs2dm8lr. -/
def nixBase32TestString : List Nat :=
  [48, 48, 48, 121, 53, 121, 51, 57, 102, 110, 120, 112, 50, 105, 106, 106,
   56, 99, 109, 100, 103, 118, 109, 105, 97, 54, 119, 119, 99, 114, 119, 115,
   49, 113, 54, 102, 98, 99, 114, 49, 102, 107, 102, 53, 114, 115, 50, 100,
   109, 56, 108, 114]

/-- C5 (amended): for every byte vector of length at least 1 (in particular all
lengths 1 to 32), decoding the encoding gives back the bytes, the encoded
string has length ceil(len*8/5) and uses only the 32-character nix-base32
alphabet; the 32-byte test value encodes to the expected string.  The original
claim also covered length 0, on which `to_nix_base32` panics (usize underflow
in `bytes.len() * 8 - 1`). -/
theorem to_from_nix_base32_roundtrip :
    (∀ bytes : List Nat, 1 ≤ bytes.length → (∀ x ∈ bytes, x < 256) →
      ∃ s, to_nix_base32 bytes = some s
        ∧ from_nix_base32 s = some bytes
        ∧ s.length = (bytes.length * 8 + 4) / 5
        ∧ ∀ c ∈ s, c ∈ BASE32_CHARS)
    ∧ to_nix_base32 nixBase32TestBytes = some nixBase32TestString
    ∧ from_nix_base32 nixBase32TestString = some nixBase32TestBytes := by
  refine ⟨nix_base32_roundtrip_of_pos_length, by decide, by decide⟩

/-- C5 witness: the round trip at the concrete two-byte input [171, 51]. -/
theorem to_from_nix_base32_roundtrip_witness :
    ∃ s, to_nix_base32 [171, 51] = some s
      ∧ from_nix_base32 s = some [171, 51]
      ∧ s.length = ([171, 51].length * 8 + 4) / 5
      ∧ ∀ c ∈ s, c ∈ BASE32_CHARS :=
  to_from_nix_base32_roundtrip.1 [171, 51] (by norm_num) (by decide)

/-- C5 counterexample: on the empty byte vector the encoder aborts
(usize underflow), so the round trip does not return the empty vector. -/
theorem to_nix_base32_empty_fails :
    to_nix_base32 [] = none
      ∧ (to_nix_base32 []).bind from_nix_base32 ≠ some ([] : List Nat) := by
  decide

/-! ### Content-defined chunking, from server/src/chunking.rs -/

/-- read_chunk_async: greedily fills a buffer `buf` of capacity `cap` from the
stream; returns the frozen chunk together with the remaining stream.  The
loop reads until the buffer is full or the stream ends, so the chunk holds
the next `cap - buf.length` available bytes. -/
def read_chunk_async (s : List Nat) (buf : List Nat) (cap : Nat) :
    List Nat × List Nat :=
  (buf ++ s.take (cap - buf.length), s.drop (cap - buf.length))

/-- Sum of the lengths of a fastcdc chunk list (the `consumed` counter). -/
def sumLens (cuts : List (Nat × Nat)) : Nat :=
  (cuts.map (fun c => c.2)).sum

/-- Chunks are contiguous (offset, length) pairs starting at a given offset;
this is structural in the fastcdc iterator, which tracks `bytes_processed`. -/
def ContigFrom : Nat → List (Nat × Nat) → Prop
  | _, [] => True
  | o, c :: cs => c.1 = o ∧ ContigFrom (o + c.2) cs

/-- Documented contract of the external fastcdc crate at fixed parameters:
the produced chunks are contiguous from offset 0, fit in the buffer, cover
the whole buffer when `eof` is set, and make progress on a full buffer. -/
def ChunkerContract (cut : List Nat → Nat → Nat → Nat → Bool → List (Nat × Nat))
    (minSize avgSize maxSize : Nat) : Prop :=
  ∀ data eof,
    ContigFrom 0 (cut data minSize avgSize maxSize eof)
    ∧ sumLens (cut data minSize avgSize maxSize eof) ≤ data.length
    ∧ (eof = true → sumLens (cut data minSize avgSize maxSize eof) = data.length)
    ∧ (eof = false → data.length = maxSize →
        1 ≤ sumLens (cut data minSize avgSize maxSize eof))

/-- The loop of chunk_stream.  One unit of fuel is one loop iteration; the
loop state is the carry buffer and the remaining stream.  `cut` stands for
`FastCDC::with_eof` of the external fastcdc crate. -/
def chunkStreamGo (cut : List Nat → Nat → Nat → Nat → Bool → List (Nat × Nat))
    (minSize avgSize maxSize : Nat) :
    Nat → List Nat → List Nat → List (List Nat)
  | 0, _, _ => []
  | fuel + 1, buf, s =>
    let read := (read_chunk_async s buf maxSize).1
    let rest := (read_chunk_async s buf maxSize).2
    if read.isEmpty then []
    else
      let eof := decide (read.length < maxSize)
      let chunks := cut read minSize avgSize maxSize eof
      let emitted := chunks.map (fun c => (read.drop c.1).take c.2)
      if eof then emitted
      else emitted ++ chunkStreamGo cut minSize avgSize maxSize fuel
        (read.drop (sumLens chunks)) rest

/-- chunk_stream: splits a stream into content-defined chunks.  The initial
buffer is empty; `F.length + 1` units of fuel cover every loop iteration
(each non-final iteration consumes at least one pending byte under the
chunker contract). -/
def chunk_stream (cut : List Nat → Nat → Nat → Nat → Bool → List (Nat × Nat))
    (minSize avgSize maxSize : Nat) (F : List Nat) : List (List Nat) :=
  chunkStreamGo cut minSize avgSize maxSize (F.length + 1) [] F

/-- Slicing a buffer at contiguous cut points and concatenating gives back the
consumed prefix. -/
theorem slices_join (read : List Nat) :
    ∀ (cuts : List (Nat × Nat)) (o : Nat), ContigFrom o cuts →
      o + sumLens cuts ≤ read.length →
      (cuts.map (fun c => (read.drop c.1).take c.2)).flatten
        = (read.drop o).take (sumLens cuts)
  | [], o, _, _ => by simp [sumLens]
  | c :: cs, o, hco, hlen => by
    obtain ⟨hc1, hc2⟩ := hco
    have hsum : sumLens (c :: cs) = c.2 + sumLens cs := by
      simp [sumLens]
    have hrec := slices_join read cs (o + c.2) hc2 (by
      rw [hsum] at hlen
      omega)
    simp only [List.map_cons, List.flatten_cons, hc1, hrec, hsum]
    rw [List.take_add, ← List.drop_drop]

/-- Invariant of the chunk_stream loop: with sufficient fuel, the emitted
chunks concatenate to the carry buffer followed by the remaining stream. -/
theorem chunkStreamGo_flatten
    (cut : List Nat → Nat → Nat → Nat → Bool → List (Nat × Nat))
    (minSize avgSize maxSize : Nat)
    (hcut : ChunkerContract cut minSize avgSize maxSize)
    (hmax : 1 ≤ maxSize) :
    ∀ fuel buf s, buf.length < maxSize → buf.length + s.length < fuel →
      (chunkStreamGo cut minSize avgSize maxSize fuel buf s).flatten = buf ++ s := by
  intro fuel
  induction fuel with
  | zero =>
    intro buf s _ hf
    omega
  | succ fuel ih =>
    intro buf s hbuf hf
    unfold chunkStreamGo
    simp only [read_chunk_async]
    set read := buf ++ s.take (maxSize - buf.length) with hread
    have hreadrest : read ++ s.drop (maxSize - buf.length) = buf ++ s := by
      rw [hread, List.append_assoc, List.take_append_drop]
    have hreadlen : read.length = buf.length + min (maxSize - buf.length) s.length := by
      simp [hread, List.length_take]
    by_cases hempty : read.isEmpty
    · rw [if_pos hempty]
      have hrnil : read = [] := List.isEmpty_iff.mp hempty
      have hbnil : buf = [] := (List.append_eq_nil.mp hrnil).1
      have htnil : s.take (maxSize - buf.length) = [] := (List.append_eq_nil.mp hrnil).2
      have hsnil : s = [] := by
        have h0 : maxSize - buf.length = maxSize := by rw [hbnil]; rfl
        rw [h0] at htnil
        rcases List.take_eq_nil_iff.mp htnil with h | h
        · omega
        · exact h
      simp [hbnil, hsnil]
    · rw [if_neg hempty]
      set eofFlag := decide (read.length < maxSize) with heofdef
      set cuts := cut read minSize avgSize maxSize eofFlag with hcuts
      obtain ⟨hcontig, hle, heof, hprog⟩ := hcut read eofFlag
      rw [← hcuts] at hcontig hle heof hprog
      by_cases hlt : read.length < maxSize
      · have heq : eofFlag = true := by rw [heofdef]; exact decide_eq_true hlt
        rw [if_pos (show eofFlag = true from heq)]
        have hsum : sumLens cuts = read.length := heof heq
        have hjoin := slices_join read cuts 0 hcontig (by omega)
        rw [hjoin, hsum, List.drop_zero, List.take_length]
        have hrest : s.drop (maxSize - buf.length) = [] := by
          apply List.drop_eq_nil_of_le
          omega
        rw [hrest, List.append_nil] at hreadrest
        exact hreadrest
      · have heq : eofFlag = false := by rw [heofdef]; exact decide_eq_false hlt
        rw [if_neg (by rw [heq]; simp)]
        have hreadmax : read.length = maxSize := by omega
        have hsum1 : 1 ≤ sumLens cuts := hprog heq hreadmax
        have hjoin := slices_join read cuts 0 hcontig (by omega)
        have hdl : (read.drop (sumLens cuts)).length = read.length - sumLens cuts :=
          List.length_drop _ _
        have hrl : (s.drop (maxSize - buf.length)).length
            = s.length - (maxSize - buf.length) := List.length_drop _ _
        rw [List.flatten_append, hjoin, List.drop_zero]
        rw [ih (read.drop (sumLens cuts)) (s.drop (maxSize - buf.length))
          (by rw [hdl]; omega) (by rw [hdl, hrl]; omega)]
        rw [← List.append_assoc, List.take_append_drop]
        exact hreadrest

/-- C1 (amended): for every byte stream and parameters min ≤ avg ≤ max with
max ≥ 1, provided the external fastcdc splitter meets its contract
(`ChunkerContract`), the concatenation of all chunks emitted by chunk_stream,
in emission order, equals the input exactly.  The original claim allowed
max_size = 0, where chunk_stream emits nothing even for nonempty input. -/
theorem chunk_stream_concat
    (cut : List Nat → Nat → Nat → Nat → Bool → List (Nat × Nat))
    (minSize avgSize maxSize : Nat) (F : List Nat)
    (hcut : ChunkerContract cut minSize avgSize maxSize)
    (_hminavg : minSize ≤ avgSize) (_havgmax : avgSize ≤ maxSize) (hmax : 1 ≤ maxSize) :
    (chunk_stream cut minSize avgSize maxSize F).flatten = F := by
  unfold chunk_stream
  have h := chunkStreamGo_flatten cut minSize avgSize maxSize hcut hmax
    (F.length + 1) [] F (by simpa using hmax) (by simp)
  simpa using h

/-- A degenerate but contract-abiding splitter: one chunk covering the whole
buffer.  Used to witness the chunking theorems at concrete inputs (the real
FastCDC is an external crate). -/
def chunkWholeCut : List Nat → Nat → Nat → Nat → Bool → List (Nat × Nat) :=
  fun data _ _ _ _ => if data.isEmpty then [] else [(0, data.length)]

theorem chunkWholeCut_contract : ChunkerContract chunkWholeCut 1 1 1 := by
  intro data eof
  by_cases h : data.isEmpty
  · have hd : data = [] := List.isEmpty_iff.mp h
    subst hd
    simp [chunkWholeCut, ContigFrom, sumLens]
  · have hd : data.length ≠ 0 := by
      rw [List.isEmpty_iff] at h
      intro h0
      exact h (List.eq_nil_of_length_eq_zero h0)
    refine ⟨?_, ?_, ?_, ?_⟩ <;>
      simp [chunkWholeCut, h, ContigFrom, sumLens] <;> omega

/-- C1 witness: the contract holds for the whole-buffer splitter at
parameters (1, 1, 1) and the reassembled bytes of [9, 8, 7] are [9, 8, 7]. -/
theorem chunk_stream_concat_witness :
    ChunkerContract chunkWholeCut 1 1 1
      ∧ (chunk_stream chunkWholeCut 1 1 1 [9, 8, 7]).flatten = [9, 8, 7] :=
  ⟨chunkWholeCut_contract,
    chunk_stream_concat chunkWholeCut 1 1 1 [9, 8, 7] chunkWholeCut_contract
      (le_refl 1) (le_refl 1) (le_refl 1)⟩

/-- C1 counterexample: at parameters (0, 0, 0) — allowed by the claim, which
only requires min ≤ avg ≤ max — the first greedy read fills a zero-capacity
buffer, so the loop breaks immediately and the stream emits nothing for the
nonempty input [7].  The splitter is never invoked, so any splitter
(here the contract-abiding whole-buffer one) exhibits the failure. -/
theorem chunk_stream_max_zero_loses_data :
    chunk_stream chunkWholeCut 0 0 0 [7] = []
      ∧ (chunk_stream chunkWholeCut 0 0 0 [7]).flatten ≠ [7] := by
  decide

/-! ### Merging chunk streams, from server/src/chunking.rs -/

/-- The loop of merge_chunks.  `chunks` is the queue of chunk descriptors,
`streams` the FIFO of in-flight opened streams (spawned join handles; opening
a descriptor `c` produces the frame list `streamer c`).  Each iteration pops
and fully drains the head stream, then schedules opens while the FIFO holds
fewer than `numPrefetch` entries, and stops when both queues are empty.
One unit of fuel is one loop iteration. -/
def mergeChunksGo {C : Type} (streamer : C → List (List Nat)) (numPrefetch : Nat) :
    Nat → List C → List (List (List Nat)) → List (List Nat)
  | 0, _, _ => []
  | fuel + 1, chunks, streams =>
    let drained := match streams with
      | [] => ([], ([] : List (List (List Nat))))
      | h :: t => (h, t)
    let emitted := drained.1
    let streams := drained.2
    let k := min (numPrefetch - streams.length) chunks.length
    let streams := streams ++ (chunks.take k).map streamer
    let chunks := chunks.drop k
    if chunks.isEmpty ∧ streams.isEmpty then emitted
    else emitted ++ mergeChunksGo streamer numPrefetch fuel chunks streams

/-- merge_chunks: lazily concatenates the streams of a queue of chunk
descriptors, keeping up to `numPrefetch` opens in flight.  The fuel
`2 * chunks.length + 2` covers every loop iteration: each iteration pops a
stream or moves at least one descriptor when `numPrefetch ≥ 1`. -/
def merge_chunks {C : Type} (chunks : List C) (streamer : C → List (List Nat))
    (numPrefetch : Nat) : List (List Nat) :=
  mergeChunksGo streamer numPrefetch (2 * chunks.length + 2) chunks []

/-- Invariant of the merge loop: with sufficient fuel the output is the
concatenation of the in-flight streams followed by the streamed descriptors,
in queue order. -/
theorem mergeChunksGo_flatten {C : Type} (streamer : C → List (List Nat))
    (numPrefetch : Nat) (hpre : 1 ≤ numPrefetch) :
    ∀ fuel (chunks : List C) (streams : List (List (List Nat))),
      2 * chunks.length + streams.length < fuel →
      mergeChunksGo streamer numPrefetch fuel chunks streams
        = (streams ++ chunks.map streamer).flatten := by
  intro fuel
  induction fuel with
  | zero =>
    intro chunks streams hf
    omega
  | succ fuel ih =>
    intro chunks streams hf
    unfold mergeChunksGo
    cases streams with
    | nil =>
      by_cases hend : (chunks.drop (min (numPrefetch - List.length ([] : List (List (List Nat)))) chunks.length)).isEmpty = true
          ∧ (([] : List (List (List Nat))) ++ (chunks.take (min (numPrefetch - List.length ([] : List (List (List Nat)))) chunks.length)).map streamer).isEmpty = true
      · rw [if_pos hend]
        obtain ⟨he1, he2⟩ := hend
        rw [List.isEmpty_iff] at he1 he2
        simp only [List.nil_append] at he2
        have h3 := congrArg List.length he2
        simp only [List.length_map, List.length_take, List.length_nil, Nat.sub_zero] at h3
        have h4 : chunks.length = 0 := by
          have h5 := congrArg List.length he1
          simp only [List.length_drop, List.length_nil] at h5
          omega
        have hc : chunks = [] := List.eq_nil_of_length_eq_zero h4
        subst hc
        simp
      · rw [if_neg hend]
        rw [ih _ _ (by
          simp only [List.length_drop, List.length_append, List.length_map,
            List.length_take, List.length_nil, Nat.sub_zero]
          rcases Nat.eq_zero_or_pos chunks.length with h0 | h0
          · have hc : chunks = [] := List.eq_nil_of_length_eq_zero h0
            subst hc
            exfalso
            exact hend (by constructor <;> simp)
          · omega)]
        simp only [List.nil_append]
        rw [← List.map_append, List.take_append_drop]
    | cons hh t =>
      by_cases hend : (chunks.drop (min (numPrefetch - t.length) chunks.length)).isEmpty = true
          ∧ (t ++ (chunks.take (min (numPrefetch - t.length) chunks.length)).map streamer).isEmpty = true
      · rw [if_pos hend]
        obtain ⟨he1, he2⟩ := hend
        rw [List.isEmpty_iff] at he1 he2
        have ht : t = [] := (List.append_eq_nil.mp he2).1
        have hmap : (chunks.take (min (numPrefetch - t.length) chunks.length)).map streamer = [] :=
          (List.append_eq_nil.mp he2).2
        have h3 := congrArg List.length hmap
        have h4 : chunks.length = 0 := by
          subst ht
          have h5 := congrArg List.length he1
          simp only [List.length_drop, List.length_nil] at h5
          simp only [List.length_map, List.length_take, List.length_nil, Nat.sub_zero] at h3
          omega
        have hc : chunks = [] := List.eq_nil_of_length_eq_zero h4
        subst hc
        subst ht
        simp
      · rw [if_neg hend]
        rw [ih _ _ (by
          simp only [List.length_drop, List.length_append, List.length_map,
            List.length_take, List.length_cons] at *
          omega)]
        rw [List.cons_append, List.flatten_cons]
        congr 1
        rw [List.append_assoc, ← List.map_append, List.take_append_drop]

/-- C4: for every finite queue of chunk descriptors and every
num_prefetch ≥ 1, merge_chunks yields exactly the concatenation of each
chunk's streamed frames, strictly in enqueue order (and in particular
terminates once both the descriptor queue and the in-flight queue are
empty). -/
theorem merge_chunks_concat {C : Type} (chunks : List C)
    (streamer : C → List (List Nat)) (numPrefetch : Nat) (hpre : 1 ≤ numPrefetch) :
    merge_chunks chunks streamer numPrefetch = (chunks.map streamer).flatten := by
  unfold merge_chunks
  rw [mergeChunksGo_flatten streamer numPrefetch hpre _ chunks [] (by simp)]
  simp

/-- C4 witness: the repository's own test case: chunks yielding frames
"Hello" / ", ", "world" / "!" merged with prefetch 2 produce the bytes of
"Hello, world!". -/
theorem merge_chunks_concat_witness :
    merge_chunks
        [[[72, 101, 108, 108, 111]], [[44, 32], [119, 111, 114, 108, 100]], [[33]]]
        (fun c => c) 2
      = [[72, 101, 108, 108, 111], [44, 32], [119, 111, 114, 108, 100], [33]]
      ∧ (merge_chunks
          [[[72, 101, 108, 108, 111]], [[44, 32], [119, 111, 114, 108, 100]], [[33]]]
          (fun c => c) 2).flatten
        = [72, 101, 108, 108, 111, 44, 32, 119, 111, 114, 108, 100, 33] := by
  have h := merge_chunks_concat
    [[[72, 101, 108, 108, 111]], [[44, 32], [119, 111, 114, 108, 100]], [[33]]]
    (fun c => c) 2 (by norm_num)
  exact ⟨by rw [h]; decide, by rw [h]; decide⟩

/-! ### Server error kinds, from server/src/error.rs -/

inductive ErrorKind
  | InternalServerError
  | NotFound
  | StorageError
  | RequestError
  | InvalidCompressionType
  | ManifestSerializationError
deriving DecidableEq

/-- ErrorKind::into_clients: sanitizes sensitive kinds before responding. -/
def ErrorKind.into_clients : ErrorKind → ErrorKind
  | .InternalServerError => .InternalServerError
  | .NotFound => .NotFound
  | .StorageError => .InternalServerError
  | .RequestError => .RequestError
  | .InvalidCompressionType => .InvalidCompressionType
  | .ManifestSerializationError => .InternalServerError

/-- ErrorKind::http_status_code. -/
def ErrorKind.http_status_code : ErrorKind → Nat
  | .InternalServerError => 500
  | .NotFound => 404
  | .StorageError => 500
  | .RequestError => 400
  | .InvalidCompressionType => 400
  | .ManifestSerializationError => 400

/-- The status code a client sees: the error is sanitized by `into_clients`
in `IntoResponse` before its status code is taken. -/
def ErrorKind.response_status (e : ErrorKind) : Nat :=
  e.into_clients.http_status_code

/-! ### Binary cache routes, from server/src/api/binary_cache.rs -/

/-- str::splitn(2, sep): the part before the first separator and the rest,
or `none` when the separator does not occur (the collected vector then has a
single component). -/
def splitFirst (sep : Nat) : List Nat → Option (List Nat × List Nat)
  | [] => none
  | c :: cs =>
    if c = sep then some ([], cs)
    else (splitFirst sep cs).map (fun p => (c :: p.1, p.2))

/-- StorePathHash::new (nixcache-common nix_store module): the hash must be
exactly 32 bytes long and match the anchored regex over the nix-base32
alphabet. -/
def StorePathHash.new (h : List Nat) : Bool :=
  h.length = 32 && h.all (fun c => BASE32_CHARS.contains c)

/-- ASCII bytes of narinfo. -/
def narinfoSuffix : List Nat := [110, 97, 114, 105, 110, 102, 111]

/-- ASCII bytes of nar. -/
def narSuffix : List Nat := [110, 97, 114]

/-- Request parsing of get_store_path_info (`GET|HEAD /{path}.narinfo`):
not two dot components or a wrong suffix is NotFound; a store path hash
rejected by `StorePathHash::new` is RequestError; otherwise the handler
proceeds to storage with the hash. -/
def get_store_path_info_route (path : List Nat) : Except ErrorKind (List Nat) :=
  match splitFirst 46 path with
  | none => .error .NotFound
  | some (hash, suffix) =>
    if suffix ≠ narinfoSuffix then .error .NotFound
    else if StorePathHash.new hash then .ok hash
    else .error .RequestError

/-- Request parsing of get_nar (`GET /nar/{path}.nar`), same shape with the
nar suffix. -/
def get_nar_route (path : List Nat) : Except ErrorKind (List Nat) :=
  match splitFirst 46 path with
  | none => .error .NotFound
  | some (hash, suffix) =>
    if suffix ≠ narSuffix then .error .NotFound
    else if StorePathHash.new hash then .ok hash
    else .error .RequestError

/-- C9 (amended): for .narinfo and .nar requests, a path with no component
after the dot or an unknown suffix yields NotFound (HTTP 404), but a
store-path-hash component that is not 32 nix-base32 characters yields
RequestError, which the error renderer maps to HTTP 400, not 404. -/
theorem binary_cache_route_errors (path : List Nat) :
    (splitFirst 46 path = none →
      get_store_path_info_route path = .error .NotFound
        ∧ get_nar_route path = .error .NotFound)
    ∧ (∀ hash suffix, splitFirst 46 path = some (hash, suffix) →
        (suffix ≠ narinfoSuffix →
          get_store_path_info_route path = .error .NotFound)
        ∧ (suffix ≠ narSuffix → get_nar_route path = .error .NotFound)
        ∧ (StorePathHash.new hash = false →
            get_store_path_info_route path = .error .NotFound
              ∨ get_store_path_info_route path = .error .RequestError)
        ∧ (suffix = narinfoSuffix → StorePathHash.new hash = false →
            get_store_path_info_route path = .error .RequestError)
        ∧ (suffix = narSuffix → StorePathHash.new hash = false →
            get_nar_route path = .error .RequestError))
    ∧ ErrorKind.NotFound.response_status = 404
    ∧ ErrorKind.RequestError.response_status = 400 := by
  refine ⟨?_, ?_, rfl, rfl⟩
  · intro hs
    constructor
    · simp only [get_store_path_info_route, hs]
    · simp only [get_nar_route, hs]
  · intro hash suffix hs
    refine ⟨?_, ?_, ?_, ?_, ?_⟩
    · intro hsuf
      simp only [get_store_path_info_route, hs, if_pos hsuf]
    · intro hsuf
      simp only [get_nar_route, hs, if_pos hsuf]
    · intro hbad
      by_cases hsuf : suffix ≠ narinfoSuffix
      · exact Or.inl (by simp only [get_store_path_info_route, hs, if_pos hsuf])
      · refine Or.inr ?_
        simp only [get_store_path_info_route, hs, if_neg hsuf, hbad]
        rfl
    · intro hsuf hbad
      have hsuf2 : ¬suffix ≠ narinfoSuffix := by simp [hsuf]
      simp only [get_store_path_info_route, hs, if_neg hsuf2, hbad]
      rfl
    · intro hsuf hbad
      have hsuf2 : ¬suffix ≠ narSuffix := by simp [hsuf]
      simp only [get_nar_route, hs, if_neg hsuf2, hbad]
      rfl

/-- C9 witness: the concrete paths abc.narinfo and abc.nar (hash abc is not
32 chars) are both answered with RequestError. -/
theorem binary_cache_route_errors_witness :
    splitFirst 46 [97, 98, 99, 46, 110, 97, 114, 105, 110, 102, 111]
        = some ([97, 98, 99], narinfoSuffix)
      ∧ get_store_path_info_route [97, 98, 99, 46, 110, 97, 114, 105, 110, 102, 111]
        = .error .RequestError
      ∧ get_nar_route [97, 98, 99, 46, 110, 97, 114] = .error .RequestError :=
  ⟨by decide,
    ((binary_cache_route_errors [97, 98, 99, 46, 110, 97, 114, 105, 110, 102, 111]).2.1
      [97, 98, 99] narinfoSuffix (by decide)).2.2.2.1 rfl (by decide),
    ((binary_cache_route_errors [97, 98, 99, 46, 110, 97, 114]).2.1
      [97, 98, 99] narSuffix (by decide)).2.2.2.2 rfl (by decide)⟩

/-- C9 counterexample: the request abc.narinfo has a malformed store path
hash; the server responds with RequestError, whose rendered status is 400,
not 404 as the claim states. -/
theorem bad_hash_is_400_not_404 :
    get_store_path_info_route [97, 98, 99, 46, 110, 97, 114, 105, 110, 102, 111]
        = .error .RequestError
      ∧ ErrorKind.RequestError.response_status = 400
      ∧ ErrorKind.RequestError.response_status ≠ 404 :=
  ⟨rfl, rfl, by decide⟩

/-! ### Upload handler, from server/src/api/v1/upload_path.rs

The sha256 digest and the configured compressor are abstract functions
(external crates); `StreamHasher` is referenced from server/src/stream.rs,
which is not among the server sources, and is modelled from the spec. -/

structure UploadRequestM where
  store_path_hash : List Nat
  nar_hash : List Nat
  nar_size : Nat
deriving DecidableEq

structure CompressionConfigM where
  ctype : Nat
  level : Option Nat
deriving DecidableEq

structure UploadedChunkM where
  file_hash : List Nat
  file_size : Nat
  compression : CompressionConfigM
deriving DecidableEq

structure UploadedNarM where
  nar_hash : List Nat
  nar_size : Nat
  chunks : List UploadedChunkM
deriving DecidableEq

structure UploadResponseM where
  file_size : Option Nat
deriving DecidableEq

/-- A call into the storage backend.  Chunk keys are the content hash of the
compressed data (the typed-base32 rendering of the source is an injective
encoding of the digest and is dropped here); nar keys are the store path
hash. -/
inductive StorageEffect
  | uploadChunk (key : List Nat) (data : List Nat)
  | uploadNar (key : List Nat) (nar : UploadedNarM)
deriving DecidableEq

def StorageEffect.isNarUpload : StorageEffect → Bool
  | .uploadNar _ _ => true
  | .uploadChunk _ _ => false

inductive HandlerOutcome
  | ok (resp : UploadResponseM)
  | err (e : ErrorKind)
  | panicked
deriving DecidableEq

/-- ChunkingConfig, from server/src/config.rs. -/
structure ChunkingConfigM where
  nar_size_threshold : Nat
  min_size : Nat
  avg_size : Nat
  max_size : Nat
deriving DecidableEq

/-- Modelled from the spec: the one-shot cell of `StreamHasher`
(server/src/stream.rs is referenced by the handler but missing from the
sources).  The wrapped stream feeds the digest and a byte counter; after the
stream reaches end-of-stream the cell holds the digest and total byte count;
before that it is absent, and `OnceCell::get().unwrap()` panics. -/
def streamHasherCell (sha : List Nat → List Nat) (consumed : List Nat)
    (sawEof : Bool) : Option (List Nat × Nat) :=
  if sawEof then some (sha consumed, consumed.length) else none

/-- upload_path_new_unchunked: cap the body at nar_size, hash it, compress,
read the compressed output into a buffer of capacity max_size, check the
declared hash and size, then upload one chunk and a one-chunk manifest.
Both hasher cells are populated exactly when the compressed stream was
drained past end-of-stream, i.e. its length is strictly below the buffer
capacity; otherwise the `unwrap` of the cell panics before any upload. -/
def upload_path_new_unchunked (sha compress : List Nat → List Nat)
    (req : UploadRequestM) (body : List Nat) (cfg : ChunkingConfigM)
    (ccfg : CompressionConfigM) : HandlerOutcome × List StorageEffect :=
  let archive := body.take req.nar_size
  let compressed := compress archive
  let read := compressed.take cfg.max_size
  let drained := decide (compressed.length < cfg.max_size)
  match streamHasherCell sha archive drained,
        streamHasherCell sha compressed drained with
  | some (nar_hash, nar_size), some (file_hash, file_size) =>
    if req.nar_hash ≠ nar_hash ∨ req.nar_size ≠ nar_size then
      (.err .RequestError, [])
    else
      (.ok ⟨some file_size⟩,
        [.uploadChunk file_hash read,
         .uploadNar req.store_path_hash ⟨nar_hash, nar_size, [⟨file_hash, file_size, ccfg⟩]⟩])
  | _, _ => (.panicked, [])

/-- The spawned task for one chunk of the chunked path: compress the chunk,
read the compressed output into a buffer of capacity max_size, then upload.
`none` models the task panicking on an empty hasher cell (compressed output
not drained); such a task uploads nothing. -/
def uploadChunkTask (sha compress : List Nat → List Nat) (maxSize : Nat)
    (ccfg : CompressionConfigM) (data : List Nat) :
    Option (UploadedChunkM × List Nat) :=
  let compressed := compress data
  if compressed.length < maxSize then
    some (⟨sha compressed, compressed.length, ccfg⟩, compressed)
  else none

/-- upload_path_new_chunked: cap the body at nar_size, hash it through
StreamHasher, split it with the chunker, spawn one upload task per chunk
(bounded by a semaphore, awaited in input order by join_all), then read the
outer hasher cell (`nar_compute.get().unwrap()`), check the declared NAR hash
and size, await the tasks and write the manifest.  The cell is filled exactly
when the chunker polled the wrapped stream past end-of-stream: with
max_size ≥ 1 every exit of the chunker loop follows a zero-byte `read_buf`
(either the empty-read break or the short-read eof break), so the cell holds
the digest; with max_size = 0 the zero-capacity reads never poll the stream,
the cell stays empty and the unwrap panics before the hash check.  Chunk
uploads of already-spawned tasks happen even when the handler errors or
panics; the manifest is only written on full success. -/
def upload_path_new_chunked (sha compress : List Nat → List Nat)
    (cut : List Nat → Nat → Nat → Nat → Bool → List (Nat × Nat))
    (req : UploadRequestM) (body : List Nat) (cfg : ChunkingConfigM)
    (ccfg : CompressionConfigM) : HandlerOutcome × List StorageEffect :=
  let archive := body.take req.nar_size
  let chunks := chunk_stream cut cfg.min_size cfg.avg_size cfg.max_size archive
  let tasks := chunks.map (uploadChunkTask sha compress cfg.max_size ccfg)
  let chunkEffects := (tasks.filterMap id).map
    (fun t => StorageEffect.uploadChunk t.1.file_hash t.2)
  match streamHasherCell sha archive (decide (0 < cfg.max_size)) with
  | none => (.panicked, chunkEffects)
  | some (nar_hash, nar_size) =>
    if nar_hash ≠ req.nar_hash ∨ nar_size ≠ req.nar_size then
      (.err .RequestError, chunkEffects)
    else if tasks.any (fun t => t.isNone) then
      (.panicked, chunkEffects)
    else
      let ucs := tasks.filterMap (fun t => t.map Prod.fst)
      let file_size := ucs.foldl (fun acc c => acc + c.file_size) 0
      (.ok ⟨some file_size⟩,
        chunkEffects ++ [.uploadNar req.store_path_hash ⟨nar_hash, nar_size, ucs⟩])

/-- upload_path_new: dispatch between the unchunked and the chunked path. -/
def upload_path_new (sha compress : List Nat → List Nat)
    (cut : List Nat → Nat → Nat → Nat → Bool → List (Nat × Nat))
    (req : UploadRequestM) (body : List Nat) (cfg : ChunkingConfigM)
    (ccfg : CompressionConfigM) : HandlerOutcome × List StorageEffect :=
  if cfg.nar_size_threshold = 0 ∨ req.nar_size < cfg.nar_size_threshold then
    upload_path_new_unchunked sha compress req body cfg ccfg
  else
    upload_path_new_chunked sha compress cut req body cfg ccfg

/-- The unchunked handler when the compressed archive fits the read buffer:
both cells are populated and the handler either rejects on a hash or size
mismatch or uploads the chunk and the one-chunk manifest. -/
theorem upload_path_new_unchunked_of_fits (sha compress : List Nat → List Nat)
    (req : UploadRequestM) (body : List Nat) (cfg : ChunkingConfigM)
    (ccfg : CompressionConfigM)
    (hfit : (compress (body.take req.nar_size)).length < cfg.max_size) :
    upload_path_new_unchunked sha compress req body cfg ccfg
      = if req.nar_hash ≠ sha (body.take req.nar_size)
            ∨ req.nar_size ≠ (body.take req.nar_size).length then
          (.err .RequestError, [])
        else
          (.ok ⟨some (compress (body.take req.nar_size)).length⟩,
            [.uploadChunk (sha (compress (body.take req.nar_size)))
                (compress (body.take req.nar_size)),
             .uploadNar req.store_path_hash
               ⟨sha (body.take req.nar_size), (body.take req.nar_size).length,
                [⟨sha (compress (body.take req.nar_size)),
                  (compress (body.take req.nar_size)).length, ccfg⟩]⟩]) := by
  have hdr : decide ((compress (body.take req.nar_size)).length < cfg.max_size) = true :=
    decide_eq_true hfit
  have hread : (compress (body.take req.nar_size)).take cfg.max_size
      = compress (body.take req.nar_size) :=
    List.take_of_length_le (by omega)
  simp only [upload_path_new_unchunked, streamHasherCell, hdr, if_true, hread]

/-- The unchunked handler when the compressed archive does not fit the read
buffer: the hasher cells are never populated and the `unwrap` panics before
any storage call. -/
theorem upload_path_new_unchunked_of_overflow (sha compress : List Nat → List Nat)
    (req : UploadRequestM) (body : List Nat) (cfg : ChunkingConfigM)
    (ccfg : CompressionConfigM)
    (hfit : ¬(compress (body.take req.nar_size)).length < cfg.max_size) :
    upload_path_new_unchunked sha compress req body cfg ccfg = (.panicked, []) := by
  have hdr : decide ((compress (body.take req.nar_size)).length < cfg.max_size) = false :=
    decide_eq_false hfit
  simp only [upload_path_new_unchunked, streamHasherCell, hdr, Bool.false_eq_true,
    if_false]

/-- The chunked handler with a zero chunking max_size: the zero-capacity
reads never poll the wrapped stream to end-of-stream, the hasher cell stays
empty, and the handler panics on its unwrap before the hash check. -/
theorem upload_path_new_chunked_of_max_zero (sha compress : List Nat → List Nat)
    (cut : List Nat → Nat → Nat → Nat → Bool → List (Nat × Nat))
    (req : UploadRequestM) (body : List Nat) (cfg : ChunkingConfigM)
    (ccfg : CompressionConfigM) (hz : cfg.max_size = 0) :
    upload_path_new_chunked sha compress cut req body cfg ccfg
      = (.panicked,
         ((((chunk_stream cut cfg.min_size cfg.avg_size cfg.max_size
             (body.take req.nar_size)).map
               (uploadChunkTask sha compress cfg.max_size ccfg)).filterMap id).map
           (fun t => StorageEffect.uploadChunk t.1.file_hash t.2))) := by
  have hd : decide (0 < cfg.max_size) = false := by
    rw [hz]
    rfl
  simp only [upload_path_new_chunked, streamHasherCell, hd, Bool.false_eq_true, if_false]

/-- The chunked handler on a hash or size mismatch: the already-spawned chunk
uploads still run, but the handler never succeeds and never writes the
manifest; with max_size ≥ 1 it returns RequestError (with max_size = 0 it
panics on the empty hasher cell instead). -/
theorem upload_path_new_chunked_of_mismatch (sha compress : List Nat → List Nat)
    (cut : List Nat → Nat → Nat → Nat → Bool → List (Nat × Nat))
    (req : UploadRequestM) (body : List Nat) (cfg : ChunkingConfigM)
    (ccfg : CompressionConfigM)
    (hmis : sha (body.take req.nar_size) ≠ req.nar_hash
          ∨ (body.take req.nar_size).length ≠ req.nar_size) :
    ((0 < cfg.max_size →
        (upload_path_new_chunked sha compress cut req body cfg ccfg).1
          = .err .RequestError)
      ∧ ∀ resp, (upload_path_new_chunked sha compress cut req body cfg ccfg).1
          ≠ .ok resp)
      ∧ ∀ e ∈ (upload_path_new_chunked sha compress cut req body cfg ccfg).2,
          e.isNarUpload = false := by
  by_cases hpos : 0 < cfg.max_size
  · have hd : decide (0 < cfg.max_size) = true := decide_eq_true hpos
    have h1 : upload_path_new_chunked sha compress cut req body cfg ccfg
        = (.err .RequestError,
           ((((chunk_stream cut cfg.min_size cfg.avg_size cfg.max_size
               (body.take req.nar_size)).map
                 (uploadChunkTask sha compress cfg.max_size ccfg)).filterMap id).map
             (fun t => StorageEffect.uploadChunk t.1.file_hash t.2))) := by
      simp only [upload_path_new_chunked, streamHasherCell, hd, if_true, if_pos hmis]
    rw [h1]
    refine ⟨⟨fun _ => rfl, ?_⟩, ?_⟩
    · intro resp h
      exact absurd h (by simp)
    · intro e he
      simp only [List.mem_map] at he
      obtain ⟨t, _, rfl⟩ := he
      rfl
  · have hz : cfg.max_size = 0 := by omega
    rw [upload_path_new_chunked_of_max_zero sha compress cut req body cfg ccfg hz]
    refine ⟨⟨fun hp => absurd hp hpos, ?_⟩, ?_⟩
    · intro resp h
      exact absurd h (by simp)
    · intro e he
      simp only [List.mem_map] at he
      obtain ⟨t, _, rfl⟩ := he
      rfl

theorem filterMap_some_fun {A B : Type} (f : A → B) (l : List A) :
    l.filterMap (fun a => some (f a)) = l.map f := by
  rw [show (fun a => some (f a)) = some ∘ f from rfl, List.filterMap_eq_map]

/-- The chunked handler when max_size ≥ 1 (so the hasher cell is filled),
the declared hash and size match and every compressed chunk fits the
per-task read buffer: each chunk is uploaded in emission order and the
manifest lists them in that same order; the response carries the accumulated
file size. -/
theorem upload_path_new_chunked_of_success (sha compress : List Nat → List Nat)
    (cut : List Nat → Nat → Nat → Nat → Bool → List (Nat × Nat))
    (req : UploadRequestM) (body : List Nat) (cfg : ChunkingConfigM)
    (ccfg : CompressionConfigM) (hpos : 0 < cfg.max_size)
    (hfit : ∀ data ∈ chunk_stream cut cfg.min_size cfg.avg_size cfg.max_size
        (body.take req.nar_size), (compress data).length < cfg.max_size)
    (hhash : sha (body.take req.nar_size) = req.nar_hash)
    (hsize : (body.take req.nar_size).length = req.nar_size) :
    upload_path_new_chunked sha compress cut req body cfg ccfg
      = (.ok ⟨some (((chunk_stream cut cfg.min_size cfg.avg_size cfg.max_size
              (body.take req.nar_size)).map
                (fun data => (⟨sha (compress data), (compress data).length, ccfg⟩
                  : UploadedChunkM))).foldl (fun acc c => acc + c.file_size) 0)⟩,
        (chunk_stream cut cfg.min_size cfg.avg_size cfg.max_size
            (body.take req.nar_size)).map
          (fun data => .uploadChunk (sha (compress data)) (compress data))
          ++ [.uploadNar req.store_path_hash
              ⟨req.nar_hash, req.nar_size,
               (chunk_stream cut cfg.min_size cfg.avg_size cfg.max_size
                   (body.take req.nar_size)).map
                 (fun data => ⟨sha (compress data), (compress data).length, ccfg⟩)⟩]) := by
  have htasks : (chunk_stream cut cfg.min_size cfg.avg_size cfg.max_size
        (body.take req.nar_size)).map (uploadChunkTask sha compress cfg.max_size ccfg)
      = (chunk_stream cut cfg.min_size cfg.avg_size cfg.max_size
          (body.take req.nar_size)).map
        (fun data => some (⟨sha (compress data), (compress data).length, ccfg⟩,
          compress data)) := by
    apply List.map_congr_left
    intro data hdata
    simp only [uploadChunkTask, if_pos (hfit data hdata)]
  have hnomis : ¬(sha (body.take req.nar_size) ≠ req.nar_hash
      ∨ (body.take req.nar_size).length ≠ req.nar_size) := by
    push_neg
    exact ⟨hhash, hsize⟩
  have hd : decide (0 < cfg.max_size) = true := decide_eq_true hpos
  simp only [upload_path_new_chunked, streamHasherCell, hd, if_true, htasks,
    if_neg hnomis]
  rw [if_neg (by
    simp only [List.any_eq_true]
    rintro ⟨x, hxmem, hx⟩
    simp only [List.mem_map] at hxmem
    obtain ⟨data, _, rfl⟩ := hxmem
    simp at hx)]
  simp only [List.filterMap_map, Function.comp_def, Option.map_some', id_eq]
  rw [filterMap_some_fun, filterMap_some_fun, List.map_map]
  simp only [Function.comp_def]
  rw [hhash, hsize]

/-- C7: for every upload request, the handler takes the unchunked path exactly
when the configured nar-size-threshold is 0 or the declared nar_size is
strictly below the threshold, and the chunked path otherwise. -/
theorem upload_path_new_dispatch (sha compress : List Nat → List Nat)
    (cut : List Nat → Nat → Nat → Nat → Bool → List (Nat × Nat))
    (req : UploadRequestM) (body : List Nat) (cfg : ChunkingConfigM)
    (ccfg : CompressionConfigM) :
    ((cfg.nar_size_threshold = 0 ∨ req.nar_size < cfg.nar_size_threshold) →
      upload_path_new sha compress cut req body cfg ccfg
        = upload_path_new_unchunked sha compress req body cfg ccfg)
    ∧ (¬(cfg.nar_size_threshold = 0 ∨ req.nar_size < cfg.nar_size_threshold) →
      upload_path_new sha compress cut req body cfg ccfg
        = upload_path_new_chunked sha compress cut req body cfg ccfg) := by
  constructor
  · intro h
    simp only [upload_path_new, if_pos h]
  · intro h
    simp only [upload_path_new, if_neg h]

/-- C7 witness: with threshold 0 the unchunked path is taken. -/
theorem upload_path_new_dispatch_witness :
    upload_path_new (fun _ => [0]) (fun l => l) chunkWholeCut
        ⟨[9], [0], 5⟩ [1, 2, 3] ⟨0, 1, 1, 9⟩ ⟨0, none⟩
      = upload_path_new_unchunked (fun _ => [0]) (fun l => l)
        ⟨[9], [0], 5⟩ [1, 2, 3] ⟨0, 1, 1, 9⟩ ⟨0, none⟩ :=
  (upload_path_new_dispatch (fun _ => [0]) (fun l => l) chunkWholeCut
    ⟨[9], [0], 5⟩ [1, 2, 3] ⟨0, 1, 1, 9⟩ ⟨0, none⟩).1 (Or.inl rfl)

/-- C2 (amended): on a hash or size mismatch between the received archive and
the declared values, neither upload path ever persists a manifest and neither
succeeds; each path fails with RequestError (HTTP 400) provided its read
buffer capacity is not hit — the chunked path whenever max_size ≥ 1 (with
max_size = 0 the zero-capacity reads starve the hasher cell and the handler
panics on its unwrap before the check), the unchunked path whenever the
compressed archive fits strictly within the max_size buffer (otherwise it
panics the same way). -/
theorem upload_mismatch_no_manifest (sha compress : List Nat → List Nat)
    (cut : List Nat → Nat → Nat → Nat → Bool → List (Nat × Nat))
    (req : UploadRequestM) (body : List Nat) (cfg : ChunkingConfigM)
    (ccfg : CompressionConfigM)
    (hmis : sha (body.take req.nar_size) ≠ req.nar_hash
          ∨ (body.take req.nar_size).length ≠ req.nar_size) :
    ((0 < cfg.max_size →
        (upload_path_new_chunked sha compress cut req body cfg ccfg).1
          = .err .RequestError)
      ∧ (∀ resp, (upload_path_new_chunked sha compress cut req body cfg ccfg).1
          ≠ .ok resp)
      ∧ ∀ e ∈ (upload_path_new_chunked sha compress cut req body cfg ccfg).2,
          e.isNarUpload = false)
    ∧ (((compress (body.take req.nar_size)).length < cfg.max_size →
          upload_path_new_unchunked sha compress req body cfg ccfg
            = (.err .RequestError, []))
      ∧ ∀ e ∈ (upload_path_new_unchunked sha compress req body cfg ccfg).2,
          e.isNarUpload = false)
    ∧ ErrorKind.RequestError.response_status = 400 := by
  have hmis2 : req.nar_hash ≠ sha (body.take req.nar_size)
      ∨ req.nar_size ≠ (body.take req.nar_size).length := by
    rcases hmis with h | h
    · exact Or.inl (Ne.symm h)
    · exact Or.inr (Ne.symm h)
  have hch := upload_path_new_chunked_of_mismatch sha compress cut req body cfg ccfg hmis
  refine ⟨⟨hch.1.1, hch.1.2, hch.2⟩, ⟨?_, ?_⟩, rfl⟩
  · intro hfit
    rw [upload_path_new_unchunked_of_fits sha compress req body cfg ccfg hfit,
      if_pos hmis2]
  · by_cases hfit : (compress (body.take req.nar_size)).length < cfg.max_size
    · rw [upload_path_new_unchunked_of_fits sha compress req body cfg ccfg hfit,
        if_pos hmis2]
      intro e he
      simp at he
    · rw [upload_path_new_unchunked_of_overflow sha compress req body cfg ccfg hfit]
      intro e he
      simp at he

/-- C2 witness: a declared hash that differs from the received archive's hash
is rejected by the chunked path (max_size = 8 ≥ 1) with RequestError and no
manifest upload, and likewise by the unchunked path. -/
theorem upload_mismatch_no_manifest_witness :
    ((upload_path_new_chunked (fun _ => [0]) (fun l => l) chunkWholeCut
        ⟨[9], [1], 4⟩ [1, 2, 3, 4] ⟨1, 1, 1, 8⟩ ⟨0, none⟩).1 = .err .RequestError
      ∧ ∀ e ∈ (upload_path_new_chunked (fun _ => [0]) (fun l => l) chunkWholeCut
          ⟨[9], [1], 4⟩ [1, 2, 3, 4] ⟨1, 1, 1, 8⟩ ⟨0, none⟩).2,
          e.isNarUpload = false)
    ∧ (((fun (l : List Nat) => l) (List.take 4 [1, 2, 3, 4])).length < 8 →
        upload_path_new_unchunked (fun _ => [0]) (fun l => l)
          ⟨[9], [1], 4⟩ [1, 2, 3, 4] ⟨1, 1, 1, 8⟩ ⟨0, none⟩
          = (.err .RequestError, []))
      ∧ ∀ e ∈ (upload_path_new_unchunked (fun _ => [0]) (fun l => l)
          ⟨[9], [1], 4⟩ [1, 2, 3, 4] ⟨1, 1, 1, 8⟩ ⟨0, none⟩).2,
          e.isNarUpload = false := by
  have h := upload_mismatch_no_manifest (fun _ => [0]) (fun l => l) chunkWholeCut
    ⟨[9], [1], 4⟩ [1, 2, 3, 4] ⟨1, 1, 1, 8⟩ ⟨0, none⟩ (by decide)
  exact ⟨⟨h.1.1 (by decide), h.1.2.2⟩, h.2.1⟩

/-- C2 counterexample: an upload whose declared hash is wrong but whose
compressed archive overflows the unchunked read buffer panics instead of
returning RequestError: the outcome is neither the claimed 400 error nor any
error value at all. -/
theorem upload_mismatch_can_panic :
    upload_path_new (fun _ => []) (fun l => l) chunkWholeCut
        ⟨[9], [1], 10⟩ [7, 7, 7, 7, 7, 7, 7, 7, 7, 7] ⟨0, 1, 1, 5⟩ ⟨0, none⟩
      = (.panicked, [])
    ∧ (HandlerOutcome.panicked ≠ HandlerOutcome.err .RequestError) := by
  constructor
  · rfl
  · decide

/-- C3: for every successful chunked upload, the persisted manifest lists the
chunks exactly in chunker emission order — entry i is the compression of the
i-th emitted chunk (awaiting in input order makes task completion order
irrelevant) — and the response's file_size is the fold of file_size over the
manifest's chunks. -/
theorem chunked_upload_manifest_order (sha compress : List Nat → List Nat)
    (cut : List Nat → Nat → Nat → Nat → Bool → List (Nat × Nat))
    (req : UploadRequestM) (body : List Nat) (cfg : ChunkingConfigM)
    (ccfg : CompressionConfigM) :
    ∀ resp effects,
      upload_path_new_chunked sha compress cut req body cfg ccfg
        = (.ok resp, effects) →
      effects
          = (chunk_stream cut cfg.min_size cfg.avg_size cfg.max_size
              (body.take req.nar_size)).map
            (fun data => .uploadChunk (sha (compress data)) (compress data))
            ++ [.uploadNar req.store_path_hash
                ⟨req.nar_hash, req.nar_size,
                 (chunk_stream cut cfg.min_size cfg.avg_size cfg.max_size
                     (body.take req.nar_size)).map
                   (fun data => ⟨sha (compress data), (compress data).length, ccfg⟩)⟩]
        ∧ resp.file_size
          = some (((chunk_stream cut cfg.min_size cfg.avg_size cfg.max_size
              (body.take req.nar_size)).map
                (fun data => (⟨sha (compress data), (compress data).length, ccfg⟩
                  : UploadedChunkM))).foldl (fun acc c => acc + c.file_size) 0) := by
  intro resp effects hok
  by_cases hpos : 0 < cfg.max_size
  case neg =>
    exfalso
    have hz : cfg.max_size = 0 := by omega
    have h := upload_path_new_chunked_of_max_zero sha compress cut req body cfg ccfg hz
    rw [hok] at h
    have h1 := congrArg Prod.fst h
    simp at h1
  by_cases hmis : sha (body.take req.nar_size) ≠ req.nar_hash
      ∨ (body.take req.nar_size).length ≠ req.nar_size
  · exfalso
    have h1 := (upload_path_new_chunked_of_mismatch sha compress cut req body cfg
      ccfg hmis).1.2 resp
    rw [hok] at h1
    exact h1 rfl
  · push_neg at hmis
    obtain ⟨hhash, hsize⟩ := hmis
    by_cases hfit : ∀ data ∈ chunk_stream cut cfg.min_size cfg.avg_size cfg.max_size
        (body.take req.nar_size), (compress data).length < cfg.max_size
    · have heq := upload_path_new_chunked_of_success sha compress cut req body cfg ccfg
        hpos hfit hhash hsize
      rw [hok] at heq
      have h1 := congrArg Prod.fst heq
      have h2 := congrArg Prod.snd heq
      simp only [] at h1 h2
      refine ⟨h2, ?_⟩
      have h3 : resp = ⟨some (((chunk_stream cut cfg.min_size cfg.avg_size cfg.max_size
          (body.take req.nar_size)).map
            (fun data => (⟨sha (compress data), (compress data).length, ccfg⟩
              : UploadedChunkM))).foldl (fun acc c => acc + c.file_size) 0)⟩ := by
        injection h1
      rw [h3]
    · exfalso
      push_neg at hfit
      obtain ⟨data, hdata, hbig⟩ := hfit
      have hpanic : (((chunk_stream cut cfg.min_size cfg.avg_size cfg.max_size
          (body.take req.nar_size)).map
            (uploadChunkTask sha compress cfg.max_size ccfg)).any
          (fun t => t.isNone)) = true := by
        rw [List.any_eq_true]
        refine ⟨none, ?_, rfl⟩
        rw [List.mem_map]
        refine ⟨data, hdata, ?_⟩
        simp only [uploadChunkTask]
        rw [if_neg (show ¬((compress data).length < cfg.max_size) from by omega)]
      have hnomis : ¬(sha (body.take req.nar_size) ≠ req.nar_hash
          ∨ (body.take req.nar_size).length ≠ req.nar_size) := by
        push_neg
        exact ⟨hhash, hsize⟩
      have hd : decide (0 < cfg.max_size) = true := decide_eq_true hpos
      have : upload_path_new_chunked sha compress cut req body cfg ccfg
          = (.panicked, (((chunk_stream cut cfg.min_size cfg.avg_size cfg.max_size
              (body.take req.nar_size)).map
                (uploadChunkTask sha compress cfg.max_size ccfg)).filterMap id).map
            (fun t => StorageEffect.uploadChunk t.1.file_hash t.2)) := by
        simp only [upload_path_new_chunked, streamHasherCell, hd, if_true,
          if_neg hnomis, hpanic]
      rw [hok] at this
      have := congrArg Prod.fst this
      simp at this

/-- C3 witness: a concrete successful chunked upload whose manifest lists the
single emitted chunk and whose response carries the accumulated size. -/
theorem chunked_upload_manifest_order_witness :
    [StorageEffect.uploadChunk [0] [1, 2, 3, 4],
     StorageEffect.uploadNar [9] ⟨[0], 4, [⟨[0], 4, ⟨0, none⟩⟩]⟩]
        = (chunk_stream chunkWholeCut 1 1 8 (List.take 4 [1, 2, 3, 4])).map
          (fun data => .uploadChunk ((fun _ => [0]) ((fun (l : List Nat) => l) data))
            ((fun (l : List Nat) => l) data))
          ++ [.uploadNar [9]
              ⟨[0], 4,
               (chunk_stream chunkWholeCut 1 1 8 (List.take 4 [1, 2, 3, 4])).map
                 (fun data => ⟨(fun _ => [0]) ((fun (l : List Nat) => l) data),
                   ((fun (l : List Nat) => l) data).length, ⟨0, none⟩⟩)⟩]
      ∧ (UploadResponseM.mk (some 4)).file_size
        = some (((chunk_stream chunkWholeCut 1 1 8 (List.take 4 [1, 2, 3, 4])).map
            (fun data => ((⟨(fun _ => [0]) ((fun (l : List Nat) => l) data),
              ((fun (l : List Nat) => l) data).length, ⟨0, none⟩⟩ : UploadedChunkM)))).foldl
          (fun acc c => acc + c.file_size) 0) :=
  chunked_upload_manifest_order (fun _ => [0]) (fun l => l) chunkWholeCut
    ⟨[9], [0], 4⟩ [1, 2, 3, 4] ⟨1, 1, 1, 8⟩ ⟨0, none⟩ ⟨some 4⟩
    [StorageEffect.uploadChunk [0] [1, 2, 3, 4],
     StorageEffect.uploadNar [9] ⟨[0], 4, [⟨[0], 4, ⟨0, none⟩⟩]⟩]
    (by decide)

/-- C10 (amended): both upload paths cap the request body at nar_size bytes
via take(nar_size): the handler's entire observable behavior depends only on
the first nar_size body bytes; a body longer than nar_size whose first
nar_size bytes match the declared hash is accepted provided the read-buffer
capacities are not hit — on the unchunked path the compressed archive fits
strictly within max_size, on the chunked path max_size ≥ 1 (so the hasher
cell is filled) and every compressed chunk fits strictly within max_size —
otherwise the handler panics instead; and a body shorter than nar_size is
never accepted and never persists a manifest. -/
theorem upload_take_caps_body (sha compress : List Nat → List Nat)
    (cut : List Nat → Nat → Nat → Nat → Bool → List (Nat × Nat))
    (req : UploadRequestM) (cfg : ChunkingConfigM) (ccfg : CompressionConfigM) :
    (∀ body1 body2 : List Nat, body1.take req.nar_size = body2.take req.nar_size →
      upload_path_new sha compress cut req body1 cfg ccfg
        = upload_path_new sha compress cut req body2 cfg ccfg)
    ∧ (∀ body : List Nat, req.nar_size ≤ body.length →
        sha (body.take req.nar_size) = req.nar_hash →
        ((cfg.nar_size_threshold = 0 ∨ req.nar_size < cfg.nar_size_threshold) →
          (compress (body.take req.nar_size)).length < cfg.max_size →
          ∃ resp, (upload_path_new sha compress cut req body cfg ccfg).1 = .ok resp)
        ∧ (¬(cfg.nar_size_threshold = 0 ∨ req.nar_size < cfg.nar_size_threshold) →
          0 < cfg.max_size →
          (∀ data ∈ chunk_stream cut cfg.min_size cfg.avg_size cfg.max_size
              (body.take req.nar_size), (compress data).length < cfg.max_size) →
          ∃ resp, (upload_path_new sha compress cut req body cfg ccfg).1 = .ok resp))
    ∧ (∀ body : List Nat, body.length < req.nar_size →
        (∀ resp, (upload_path_new sha compress cut req body cfg ccfg).1 ≠ .ok resp)
        ∧ ∀ e ∈ (upload_path_new sha compress cut req body cfg ccfg).2,
            e.isNarUpload = false) := by
  refine ⟨?_, ?_, ?_⟩
  · intro body1 body2 h
    simp only [upload_path_new, upload_path_new_unchunked, upload_path_new_chunked, h]
  · intro body hlen hhash
    have hsize : (body.take req.nar_size).length = req.nar_size := by
      rw [List.length_take]
      omega
    constructor
    · intro hdisp hfitc
      refine ⟨⟨some (compress (body.take req.nar_size)).length⟩, ?_⟩
      simp only [upload_path_new, if_pos hdisp]
      rw [upload_path_new_unchunked_of_fits sha compress req body cfg ccfg hfitc,
        if_neg (by
          push_neg
          exact ⟨hhash.symm, hsize.symm⟩)]
    · intro hdisp hpos hfitall
      refine ⟨⟨some (((chunk_stream cut cfg.min_size cfg.avg_size cfg.max_size
        (body.take req.nar_size)).map
          (fun data => (⟨sha (compress data), (compress data).length, ccfg⟩
            : UploadedChunkM))).foldl (fun acc c => acc + c.file_size) 0)⟩, ?_⟩
      simp only [upload_path_new, if_neg hdisp]
      rw [upload_path_new_chunked_of_success sha compress cut req body cfg ccfg
        hpos hfitall hhash hsize]
  · intro body hshort
    have hsize : (body.take req.nar_size).length ≠ req.nar_size := by
      rw [List.length_take]
      omega
    by_cases hdisp : cfg.nar_size_threshold = 0 ∨ req.nar_size < cfg.nar_size_threshold
    · constructor
      · intro resp
        simp only [upload_path_new, if_pos hdisp]
        by_cases hfitc : (compress (body.take req.nar_size)).length < cfg.max_size
        · rw [upload_path_new_unchunked_of_fits sha compress req body cfg ccfg hfitc,
            if_pos (Or.inr (Ne.symm hsize))]
          simp
        · rw [upload_path_new_unchunked_of_overflow sha compress req body cfg ccfg hfitc]
          simp
      · simp only [upload_path_new, if_pos hdisp]
        by_cases hfitc : (compress (body.take req.nar_size)).length < cfg.max_size
        · rw [upload_path_new_unchunked_of_fits sha compress req body cfg ccfg hfitc,
            if_pos (Or.inr (Ne.symm hsize))]
          intro e he
          simp at he
        · rw [upload_path_new_unchunked_of_overflow sha compress req body cfg ccfg hfitc]
          intro e he
          simp at he
    · have hmis := upload_path_new_chunked_of_mismatch sha compress cut req body cfg ccfg
        (Or.inr hsize)
      constructor
      · intro resp
        simp only [upload_path_new, if_neg hdisp]
        exact hmis.1.2 resp
      · simp only [upload_path_new, if_neg hdisp]
        exact hmis.2

/-- C10 witness: two bodies agreeing on their first nar_size bytes lead to
identical handler behavior. -/
theorem upload_take_caps_body_witness :
    upload_path_new (fun _ => [0]) (fun l => l) chunkWholeCut
        ⟨[9], [0], 3⟩ [1, 2, 3, 4] ⟨0, 1, 1, 9⟩ ⟨0, none⟩
      = upload_path_new (fun _ => [0]) (fun l => l) chunkWholeCut
        ⟨[9], [0], 3⟩ [1, 2, 3, 5, 6] ⟨0, 1, 1, 9⟩ ⟨0, none⟩ :=
  (upload_take_caps_body (fun _ => [0]) (fun l => l) chunkWholeCut
    ⟨[9], [0], 3⟩ ⟨0, 1, 1, 9⟩ ⟨0, none⟩).1 [1, 2, 3, 4] [1, 2, 3, 5, 6] (by decide)

/-- C10 counterexample: a body longer than nar_size whose first nar_size bytes
match the declared hash is not accepted when the compressed archive reaches
the max_size buffer capacity in the unchunked path: the handler panics. -/
theorem upload_matching_long_body_can_panic :
    upload_path_new (fun _ => [2]) (fun l => l) chunkWholeCut
        ⟨[9], [2], 3⟩ [5, 5, 5, 5, 5] ⟨0, 1, 1, 2⟩ ⟨0, none⟩
      = (.panicked, [])
    ∧ ∀ resp : UploadResponseM, HandlerOutcome.panicked ≠ .ok resp := by
  constructor
  · rfl
  · intro resp h
    exact absurd h (by simp)

/-! ### Access gate, from server/src/access.rs -/

inductive AuthError
  | invalidToken
deriving DecidableEq

/-- Modelled from the spec: the `InvalidToken` error kind used by access.rs
(both for a failed Bearer extraction and for `ServerError::auth_error` on a
failed JWT verification) is absent from server/src/error.rs in the sources;
the spec assigns it HTTP status 401. -/
def AuthError.status : AuthError → Nat
  | .invalidToken => 401

/-- apply_auth: with no configured token_hs256_secret the request passes
through unconditionally; otherwise the Bearer token is extracted (`none`
models a missing or malformed Authorization header, on which the TypedHeader
extractor fails) and verified as an HS256 JWT.  `verifyToken` stands for
`HS256Key::verify_token` of the external jwt library. -/
def apply_auth {K T : Type} (verifyToken : K → T → Bool)
    (secret : Option K) (bearer : Option T) : Except AuthError Unit :=
  match secret with
  | none => .ok ()
  | some key =>
    match bearer with
    | none => .error .invalidToken
    | some tok =>
      if verifyToken key tok then .ok () else .error .invalidToken

/-- run_api_server warns at startup exactly when no secret is configured
(lib.rs). -/
def run_api_server_warns {K : Type} (secret : Option K) : Bool :=
  secret.isNone

/-- C8: with no configured secret every request is allowed (and a warning is
logged at startup); with a secret, a missing or malformed Bearer header or a
token failing HS256 verification is rejected with InvalidToken (HTTP 401),
and a valid token proceeds. -/
theorem apply_auth_gate {K T : Type} (verifyToken : K → T → Bool)
    (secret : Option K) (bearer : Option T) :
    (secret = none →
      apply_auth verifyToken secret bearer = .ok ()
        ∧ run_api_server_warns secret = true)
    ∧ (∀ key, secret = some key →
        (bearer = none → apply_auth verifyToken secret bearer = .error .invalidToken)
        ∧ (∀ tok, bearer = some tok → verifyToken key tok = false →
            apply_auth verifyToken secret bearer = .error .invalidToken)
        ∧ (∀ tok, bearer = some tok → verifyToken key tok = true →
            apply_auth verifyToken secret bearer = .ok ()))
    ∧ AuthError.invalidToken.status = 401 := by
  refine ⟨?_, ?_, rfl⟩
  · intro h
    subst h
    exact ⟨rfl, rfl⟩
  · intro key hkey
    subst hkey
    refine ⟨?_, ?_, ?_⟩
    · intro h
      subst h
      rfl
    · intro tok h hv
      subst h
      simp only [apply_auth, hv, Bool.false_eq_true, if_false]
    · intro tok h hv
      subst h
      simp only [apply_auth, hv, if_true]

/-- C8 witness: a concrete secret and tokens. -/
theorem apply_auth_gate_witness :
    apply_auth (fun (k t : Nat) => k = t) (some 5) (some 5) = .ok ()
      ∧ apply_auth (fun (k t : Nat) => k = t) (some 5) none = .error .invalidToken
      ∧ apply_auth (fun (k t : Nat) => k = t) (some 5) (some 6) = .error .invalidToken
      ∧ apply_auth (fun (k t : Nat) => k = t) (none : Option Nat) (some 6) = .ok () :=
  ⟨(((apply_auth_gate (fun (k t : Nat) => k = t) (some 5) (some 5)).2.1 5 rfl).2.2
      5 rfl (by decide)),
   (((apply_auth_gate (fun (k t : Nat) => k = t) (some 5) none).2.1 5 rfl).1 rfl),
   (((apply_auth_gate (fun (k t : Nat) => k = t) (some 5) (some 6)).2.1 5 rfl).2.1
      6 rfl (by decide)),
   ((apply_auth_gate (fun (k t : Nat) => k = t) (none : Option Nat) (some 6)).1 rfl).1⟩

/-! ### Object signing, from common/src/signing.rs

The ed25519-compact and base64 crates are external; they enter as parameters
(`Ed25519Impl`, `b64encode`, `b64decode`) whose documented behavior appears
as hypotheses of the theorems.  `KeyPair::BYTES` and `Signature::BYTES` are
both 64. -/

/-- validate_name: a valid signing key name is nonempty and contains no
colon (ASCII 58). -/
def validate_name (name : List Nat) : Bool :=
  !(name.isEmpty || name.contains 58)

/-- decode_string: split a canonical string at the first colon, validate the
name, optionally check it against an expected name, base64-decode the payload
and enforce its exact length.  All failure modes (no colon, invalid name,
wrong name, base64 error, length mismatch) collapse to `none`. -/
def decode_string (b64decode : List Nat → Option (List Nat)) (s : List Nat)
    (expectedPayloadLength : Nat) (expectedName : Option (List Nat)) :
    Option (List Nat × List Nat) :=
  match splitFirst 58 s with
  | none => none
  | some (name, payload) =>
    if validate_name name then
      if (match expectedName with
          | some expected => expected == name
          | none => true) then
        match b64decode payload with
        | none => none
        | some bytes =>
          if bytes.length = expectedPayloadLength then some (name, bytes)
          else none
      else none
    else none

/-- An ed25519 keypair with a name (the keypair field is the 64-byte
canonical key material of ed25519-compact). -/
structure KeypairM where
  name : List Nat
  keypair : List Nat
deriving DecidableEq

/-- The external ed25519-compact primitives: sign with the secret half,
verify with the public half, and `KeyPair::from_slice` validation. -/
structure Ed25519Impl where
  sign : List Nat → List Nat → List Nat
  verify : List Nat → List Nat → List Nat → Bool
  fromSliceOk : List Nat → Bool

/-- Keypair::export_keypair: `name:base64(keypair bytes)`. -/
def Keypair.export_keypair (b64encode : List Nat → List Nat) (k : KeypairM) :
    List Nat :=
  k.name ++ 58 :: b64encode k.keypair

/-- Keypair::from_str: parse the canonical representation (payload length
`KeyPair::BYTES = 64`), then rebuild the keypair via from_slice. -/
def Keypair.from_str (impl : Ed25519Impl)
    (b64decode : List Nat → Option (List Nat)) (s : List Nat) : Option KeypairM :=
  match decode_string b64decode s 64 none with
  | none => none
  | some (name, bytes) =>
    if impl.fromSliceOk bytes then some ⟨name, bytes⟩ else none

/-- Keypair::sign: `name:base64(signature)`. -/
def Keypair.sign (impl : Ed25519Impl) (b64encode : List Nat → List Nat)
    (k : KeypairM) (message : List Nat) : List Nat :=
  k.name ++ 58 :: b64encode (impl.sign k.keypair message)

/-- Keypair::verify: decode the signature string with the key's own name as
the expected name and payload length `Signature::BYTES = 64` (from_slice on a
64-byte slice always succeeds), then verify with the public half. -/
def Keypair.verify (impl : Ed25519Impl)
    (b64decode : List Nat → Option (List Nat)) (k : KeypairM)
    (message signature : List Nat) : Option Unit :=
  match decode_string b64decode signature 64 (some k.name) with
  | none => none
  | some (_, bytes) =>
    if impl.verify k.keypair message bytes then some () else none

/-- Splitting at the first colon undoes appending a colon after a colon-free
name. -/
theorem splitFirst_name_append (name rest : List Nat) (h : ¬ 58 ∈ name) :
    splitFirst 58 (name ++ 58 :: rest) = some (name, rest) := by
  induction name with
  | nil => simp [splitFirst]
  | cons c cs ih =>
    have hc : c ≠ 58 := by
      intro hcontra
      exact h (by rw [hcontra]; exact List.mem_cons_self _ _)
    have hcs : ¬ 58 ∈ cs := fun hx => h (List.mem_cons_of_mem _ hx)
    simp only [List.cons_append, splitFirst, if_neg hc, List.append_eq, ih hcs,
      Option.map_some']

/-- A valid name contains no colon. -/
theorem validate_name_not_mem (name : List Nat) (h : validate_name name = true) :
    ¬ 58 ∈ name := by
  simp only [validate_name, Bool.not_eq_eq_eq_not, Bool.not_true, Bool.or_eq_false_iff]
    at h
  intro hmem
  have h2 := h.2
  rw [List.contains_eq_any_beq] at h2
  have h3 : name.any (fun x => 58 == x) = true :=
    List.any_eq_true.mpr ⟨58, hmem, by simp⟩
  rw [h3] at h2
  exact absurd h2 (by simp)

/-- C6: signing round trip.  For a keypair with a valid name: verifying a
message against its own signature succeeds; re-importing the exported
canonical keypair string yields an equal keypair; a signature string whose
embedded name differs from the verifying key's name is rejected; and a
signature produced by a different keypair fails — by the name check when the
names differ, and by ed25519 verification (hypothesis `hcross`, the
cryptographic soundness of the external primitive) when only the key material
differs. -/
theorem keypair_sign_verify_roundtrip
    (impl : Ed25519Impl) (b64encode : List Nat → List Nat)
    (b64decode : List Nat → Option (List Nat))
    (k k2 : KeypairM) (m : List Nat)
    (hname : validate_name k.name = true)
    (hname2 : validate_name k2.name = true)
    (hrt : ∀ x, b64decode (b64encode x) = some x)
    (hsiglen : ∀ kp msg, (impl.sign kp msg).length = 64)
    (hkplen : k.keypair.length = 64)
    (hsv : ∀ msg, impl.verify k.keypair msg (impl.sign k.keypair msg) = true)
    (hfs : impl.fromSliceOk k.keypair = true) :
    Keypair.verify impl b64decode k m (Keypair.sign impl b64encode k m) = some ()
    ∧ Keypair.from_str impl b64decode (Keypair.export_keypair b64encode k) = some k
    ∧ (∀ sig name payload, splitFirst 58 sig = some (name, payload) →
        name ≠ k.name → Keypair.verify impl b64decode k m sig = none)
    ∧ (k2.name ≠ k.name →
        Keypair.verify impl b64decode k m (Keypair.sign impl b64encode k2 m) = none)
    ∧ (k2.name = k.name →
        impl.verify k.keypair m (impl.sign k2.keypair m) = false →
        Keypair.verify impl b64decode k m (Keypair.sign impl b64encode k2 m) = none) := by
  refine ⟨?_, ?_, ?_, ?_, ?_⟩
  · simp [Keypair.verify, Keypair.sign, decode_string,
      splitFirst_name_append k.name _ (validate_name_not_mem _ hname), hname,
      hrt, hsiglen, hsv]
  · simp [Keypair.from_str, Keypair.export_keypair, decode_string,
      splitFirst_name_append k.name _ (validate_name_not_mem _ hname), hname,
      hrt, hkplen, hfs]
  · intro sig name payload hsplit hne
    simp only [Keypair.verify, decode_string, hsplit]
    by_cases hv : validate_name name = true
    · have hbeq : (k.name == name) = false := by
        simp only [beq_eq_false_iff_ne, ne_eq]
        intro hcontra
        exact hne hcontra.symm
      simp [hv, hbeq]
    · simp [hv]
  · intro hne
    have hbeq : (k.name == k2.name) = false := by
      simp only [beq_eq_false_iff_ne, ne_eq]
      intro hcontra
      exact hne hcontra.symm
    simp [Keypair.verify, Keypair.sign, decode_string,
      splitFirst_name_append k2.name _ (validate_name_not_mem _ hname2), hname2, hbeq]
  · intro heqname hcross
    have hbeq : (k.name == k2.name) = true := by
      rw [heqname]
      exact beq_self_eq_true k.name
    simp [Keypair.verify, Keypair.sign, decode_string,
      splitFirst_name_append k2.name _ (validate_name_not_mem _ hname2), hname2, hbeq,
      hrt, hsiglen, hcross]

/-- A toy deterministic instantiation of the external ed25519 primitives,
used to exercise the signing round trip on concrete data: signatures are 64
ones, verification accepts exactly the distinguished key material with that
signature, and from_slice always succeeds. -/
def ed25519Toy : Ed25519Impl :=
  ⟨fun _ _ => List.replicate 64 1,
   fun kp _ s => decide (kp = List.replicate 64 7 ∧ s = List.replicate 64 1),
   fun _ => true⟩

/-- A concrete named keypair for the round-trip witness. -/
def toyKey : KeypairM := ⟨[97], List.replicate 64 7⟩

/-- A second keypair with a different name and key material. -/
def toyKey2 : KeypairM := ⟨[98], List.replicate 64 9⟩

/-- Witness for C6 at a concrete instantiation: sign-then-verify succeeds,
export-then-import reproduces the keypair, and a signature from the
differently named keypair is rejected. -/
theorem keypair_sign_verify_roundtrip_witness :
    Keypair.verify ed25519Toy (fun x => some x) toyKey [104, 105]
        (Keypair.sign ed25519Toy (fun x => x) toyKey [104, 105]) = some ()
    ∧ Keypair.from_str ed25519Toy (fun x => some x)
        (Keypair.export_keypair (fun x => x) toyKey) = some toyKey
    ∧ Keypair.verify ed25519Toy (fun x => some x) toyKey [104, 105]
        (Keypair.sign ed25519Toy (fun x => x) toyKey2 [104, 105]) = none := by
  have h := keypair_sign_verify_roundtrip ed25519Toy (fun x => x) (fun x => some x)
    toyKey toyKey2 [104, 105]
    (by decide) (by decide) (fun x => rfl) (fun kp msg => rfl) (by decide)
    (fun msg => rfl) (by decide)
  exact ⟨h.1, h.2.1, h.2.2.2.1 (by decide)⟩
